import Mathlib

/-! # CRC-32 engine (`src/main.cpp`): shallow embedding and verified properties

Machine integers (`uint32_t`, `uint8_t`, `unsigned int`) are natural numbers.
Every operation of the program on them is a right shift, a bitwise AND or a
bitwise XOR of 32-bit values (or the bounded index arithmetic of the table
loops, which stays below 512), so no operation wraps around; the one explicit
narrowing cast of the source is kept as `% 2 ^ 32`.  The array
`uint32_t m_computed_crc32_lut[256]` is a `List Nat`; a byte buffer
`(ap_datas, a_bytes_size)` is the `List Nat` of its bytes in address order.
-/

set_option maxRecDepth 100000

/-! ## Build target and capability detection -/

/-- The facts about the build and the host that the preprocessor branches and
`cpu_has_sse42` consult. -/
structure Target where
  /-- `_MSC_VER` is defined. -/
  msc_ver : Bool
  /-- Register ECX returned by `__cpuid(cpuInfo, 1)`, that is `cpuInfo[2]`. -/
  cpuid_ecx : Nat
  /-- `__SSE4_2__` is defined. -/
  sse4_2 : Bool
  /-- `_M_X64` or `__x86_64__` is defined. -/
  x64 : Bool
deriving DecidableEq, Repr

/-- `cpu_has_sse42` (main.cpp lines 9-14): ECX bit 20 of CPUID leaf 1. -/
def cpu_has_sse42 (t : Target) : Bool :=
  (t.cpuid_ecx &&& (1 <<< 20)) != 0

/-! ## Engine state -/

/-- The data members of `class Crc32` (main.cpp lines 19, 20, 64). -/
structure Crc32 where
  m_has_sse42 : Bool
  m_computed_crc32_lut : List Nat
  m_crc32_value : Nat
deriving DecidableEq, Repr

/-! ## Table generation (main.cpp lines 22-29) -/

/-- The array being filled by `m_compute_crc32_lut_table`, together with two
ghost observations of the run: how many times the outer loop body was entered
and the pairs `(i, j)` for which the inner loop body ran, in execution order. -/
structure LutRun where
  lut : List Nat
  outer_iterations : Nat
  visited : List (Nat × Nat)
deriving DecidableEq, Repr

/-- Line 25 of main.cpp: `crc32 = (crc32 >> 1) ^ (crc32 & 1 ? 0xedb88320 : 0)`. -/
def lut_next_crc32 (crc32 : Nat) : Nat :=
  (crc32 >>> 1) ^^^ (if crc32 &&& 1 ≠ 0 then 0xedb88320 else 0)

/-- Line 27 of main.cpp: `m_computed_crc32_lut[i + j] = crc32 ^ m_computed_crc32_lut[j]`,
recording the visit of `(i, j)`. -/
def lut_inner_body (i crc32 j : Nat) (r : LutRun) : LutRun :=
  { r with
    lut := r.lut.set (i + j) (crc32 ^^^ r.lut.getD j 0)
    visited := r.visited ++ [(i, j)] }

/-- The inner loop `for (j = 0; j < 256; j += 2 * i)` (main.cpp lines 26-27),
started at `j`.  It only exists inside the outer loop body, where `i` is
non-zero. -/
def lut_inner_loop (i : Nat) (hi : i ≠ 0) (crc32 : Nat) (j : Nat) (r : LutRun) : LutRun :=
  if j < 256 then
    lut_inner_loop i hi crc32 (j + 2 * i) (lut_inner_body i crc32 j r)
  else r
termination_by 256 - j
decreasing_by omega

/-- The outer loop `for (i = 128; i; i >>= 1)` (main.cpp lines 24-28), started
at `i` with the current value of the local `crc32`. -/
def lut_outer_loop (i : Nat) (crc32 : Nat) (r : LutRun) : LutRun :=
  if hi : i ≠ 0 then
    let crc32 := lut_next_crc32 crc32
    lut_outer_loop (i >>> 1) crc32
      (lut_inner_loop i hi crc32 0 { r with outer_iterations := r.outer_iterations + 1 })
  else r
termination_by i
decreasing_by
  simp only [Nat.shiftRight_one]
  omega

/-- The whole run of `m_compute_crc32_lut_table` on the array `lut`, with its
ghost observations. -/
def lut_table_run (lut : List Nat) : LutRun :=
  lut_outer_loop 128 1 { lut := lut, outer_iterations := 0, visited := [] }

/-- `Crc32::m_compute_crc32_lut_table` (main.cpp lines 22-29). -/
def Crc32.m_compute_crc32_lut_table (self : Crc32) : Crc32 :=
  { self with m_computed_crc32_lut := (lut_table_run self.m_computed_crc32_lut).lut }

/-! ## Software strategy (main.cpp lines 31-39) -/

/-- The per-byte loop of `m_compute_crc32` (main.cpp lines 34-37) over the
bytes still to be read, with the table `lut` and the running `a_crc32`. -/
def m_compute_crc32_loop (lut : List Nat) : Nat → List Nat → Nat
  | a_crc32, [] => a_crc32
  | a_crc32, b :: rest =>
    let a_crc32 := a_crc32 ^^^ b
    let a_crc32 := (a_crc32 >>> 8) ^^^ lut.getD (a_crc32 &&& 0xFF) 0
    m_compute_crc32_loop lut a_crc32 rest

/-- Line 32 of main.cpp: the table is generated when its last entry is zero. -/
def Crc32.ensure_lut (self : Crc32) : Crc32 :=
  if self.m_computed_crc32_lut.getD 255 0 = 0 then self.m_compute_crc32_lut_table else self

/-- `Crc32::m_compute_crc32` (main.cpp lines 31-39): the engine after the call
(its table may have been generated) and the returned value. -/
def Crc32.m_compute_crc32 (self : Crc32) (a_crc32 : Nat) (datas : List Nat) : Crc32 × Nat :=
  let self := self.ensure_lut
  (self, m_compute_crc32_loop self.m_computed_crc32_lut a_crc32 datas)

/-! ## Hardware strategy (main.cpp lines 41-62) -/

/-- Modelled from the spec: the SSE4.2 `CRC32` instruction behind the
intrinsics of `<nmmintrin.h>`, which are not part of the repository.  The
instruction accumulates the Castagnoli polynomial (CRC-32C) in bit-reflected
form, constant `0x82F63B78`; this is one bit of that division. -/
def crc32c_bit (x : Nat) : Nat :=
  (x >>> 1) ^^^ (if x &&& 1 ≠ 0 then 0x82F63B78 else 0)

/-- Modelled from the spec: `_mm_crc32_u8(crc, v)` (named without its leading
underscore), the CRC32 instruction with an 8-bit source operand: the byte is
XOR-ed into the low bits of the 32-bit accumulator and eight bits are divided
out. -/
def mm_crc32_u8 (crc v : Nat) : Nat :=
  crc32c_bit^[8] (crc ^^^ v)

/-- Modelled from the spec: `_mm_crc32_u64(crc, v)` (named without its leading
underscore), the CRC32 instruction with a 64-bit source operand: the low 32
bits of `crc` are XOR-ed into the low bits of the quadword and sixty-four bits
are divided out. -/
def mm_crc32_u64 (crc v : Nat) : Nat :=
  crc32c_bit^[64] ((crc % 2 ^ 32) ^^^ v)

/-- The value of `*reinterpret_cast<const uint64_t *>(p8)` on x86-64: the
little-endian quadword made of the eight bytes at `p8`. -/
def load_u64 (b0 b1 b2 b3 b4 b5 b6 b7 : Nat) : Nat :=
  b0 + b1 <<< 8 + b2 <<< 16 + b3 <<< 24 + b4 <<< 32 + b5 <<< 40 + b6 <<< 48 + b7 <<< 56

/-- The loop `while (a_bytes_size >= 8)` of main.cpp lines 47-54: the running
value and the bytes left when it exits. -/
def m_compute_crc32_sse4_wide : Nat → List Nat → Nat × List Nat
  | a_crc32, b0 :: b1 :: b2 :: b3 :: b4 :: b5 :: b6 :: b7 :: rest =>
    m_compute_crc32_sse4_wide
      (mm_crc32_u64 a_crc32 (load_u64 b0 b1 b2 b3 b4 b5 b6 b7) % 2 ^ 32) rest
  | a_crc32, rest => (a_crc32, rest)

/-- The loop `while (a_bytes_size--)` of main.cpp lines 57-59. -/
def m_compute_crc32_sse4_tail : Nat → List Nat → Nat
  | a_crc32, [] => a_crc32
  | a_crc32, b :: rest => m_compute_crc32_sse4_tail (mm_crc32_u8 a_crc32 b) rest

/-- `Crc32::m_compute_crc32_sse4` (main.cpp lines 41-62); the eight-byte loop
is compiled in on 64-bit x86 targets only. -/
def Crc32.m_compute_crc32_sse4 (t : Target) (a_crc32 : Nat) (datas : List Nat) : Nat :=
  let (a_crc32, rest) :=
    if t.x64 then m_compute_crc32_sse4_wide a_crc32 datas else (a_crc32, datas)
  m_compute_crc32_sse4_tail a_crc32 rest

/-! ## Public interface (main.cpp lines 66-101) -/

/-- The constructor `Crc32::Crc32()` (main.cpp lines 67-75), after the default
member initialisers `{}` of lines 19, 20 and 64.  (Inside the namespace of the
structure the name `Crc32` is the structure itself, hence `ctor`.) -/
def Crc32.ctor (t : Target) : Crc32 :=
  let m_has_sse42 := false
  let m_has_sse42 := if t.msc_ver then cpu_has_sse42 t else m_has_sse42
  let m_has_sse42 := if t.sse4_2 then true else m_has_sse42
  { m_has_sse42 := m_has_sse42
    m_computed_crc32_lut := List.replicate 256 0
    m_crc32_value := 0 }

/-- `Crc32::reset(a_value)` (main.cpp lines 77-80). -/
def Crc32.reset (self : Crc32) (a_value : Nat) : Crc32 :=
  { self with m_crc32_value := a_value }

/-- The call `reset()`, which takes the default argument `a_value = 0U`. -/
def Crc32.reset_default (self : Crc32) : Crc32 :=
  self.reset 0

/-- `Crc32::seed(a_seed)` (main.cpp lines 82-85). -/
def Crc32.seed (self : Crc32) (a_seed : Nat) : Crc32 :=
  { self with m_crc32_value := a_seed }

/-- `Crc32::crc32<TTYPE>(a_value)` (main.cpp lines 87-97); `a_value` is given by
its object representation, the `sizeof(TTYPE)` bytes at `&a_value`. -/
def Crc32.crc32 (t : Target) (self : Crc32) (a_value : List Nat) : Crc32 :=
  if self.m_has_sse42 then
    { self with m_crc32_value := Crc32.m_compute_crc32_sse4 t self.m_crc32_value a_value }
  else
    let (self, r) := self.m_compute_crc32 self.m_crc32_value a_value
    { self with m_crc32_value := r }

/-- `Crc32::get()` (main.cpp lines 99-101), a non-const member function: the
engine after the call and the returned digest. -/
def Crc32.get (self : Crc32) : Crc32 × Nat :=
  (self, self.m_crc32_value ^^^ 0xFFFFFFFF)

/-! ## Reachable engine states -/

/-- The calls a client can make on an engine. -/
inductive Call where
  | seed (a_seed : Nat)
  | reset (a_value : Nat)
  | crc32 (a_value : List Nat)
  | get
deriving DecidableEq, Repr

/-- A call is well typed when its `uint32_t` argument is below `2 ^ 32` and
every byte of an object representation is below `256`. -/
def Call.WellTyped : Call → Prop
  | .seed v => v < 2 ^ 32
  | .reset v => v < 2 ^ 32
  | .crc32 bytes => ∀ b ∈ bytes, b < 256
  | .get => True

/-- The engine after a call. -/
def Crc32.call (t : Target) (self : Crc32) : Call → Crc32
  | .seed v => self.seed v
  | .reset v => self.reset v
  | .crc32 bytes => self.crc32 t bytes
  | .get => self.get.1

/-- The engine states a client can bring about on target `t`: construction
followed by any number of well-typed calls. -/
inductive Crc32.Reachable (t : Target) : Crc32 → Prop where
  | ctor : Crc32.Reachable t (Crc32.ctor t)
  | call (s : Crc32) (c : Call) : Crc32.Reachable t s → c.WellTyped →
      Crc32.Reachable t (s.call t c)

/-! ## Reference definitions, in the words of the specification -/

/-- One bit of the reflected CRC-32 division: shift right by 1 and XOR
`0xEDB88320` if the shifted-out bit was 1. -/
def crc32_bit (x : Nat) : Nat :=
  if x % 2 = 1 then (x / 2) ^^^ 0xEDB88320 else x / 2

/-- One byte of the bit-at-a-time CRC-32: XOR the byte into the low 8 bits,
then 8 bit steps. -/
def crc32_byte (c b : Nat) : Nat :=
  crc32_bit^[8] (c ^^^ b)

/-- The bit-at-a-time reflected CRC-32 register started from `c` and fed the
bytes of `S` in order. -/
def crc32_bitwise (c : Nat) (S : List Nat) : Nat :=
  S.foldl crc32_byte c

/-- The standard CRC-32/IEEE-802.3 of `S`: register preset to `0xFFFFFFFF`,
output inverted. -/
def crc32_ieee (S : List Nat) : Nat :=
  crc32_bitwise 0xFFFFFFFF S ^^^ 0xFFFFFFFF

/-- The fully populated reflected CRC-32 table: entry `n` is `n` after 8 bit
steps. -/
def crc32_table : List Nat :=
  (List.range 256).map fun n => crc32_bit^[8] n

/-! ## Fuel-indexed unrolling of the table loops

The loops above are defined by well-founded recursion; to evaluate them on a
concrete array they are unrolled with an explicit iteration budget and shown to
agree with the loops whenever the budget suffices. -/

/-- The inner loop with at most `fuel` evaluations of its condition. -/
def lut_inner_fuel (i crc32 : Nat) : Nat → Nat → LutRun → Option LutRun
  | 0, _, _ => none
  | fuel + 1, j, r =>
    if j < 256 then lut_inner_fuel i crc32 fuel (j + 2 * i) (lut_inner_body i crc32 j r)
    else some r

/-- The outer loop with at most `fuel` evaluations of its condition, each inner
loop having 129 evaluations of its own. -/
def lut_outer_fuel : Nat → Nat → Nat → LutRun → Option LutRun
  | 0, _, _, _ => none
  | fuel + 1, i, crc32, r =>
    if i ≠ 0 then
      match lut_inner_fuel i (lut_next_crc32 crc32) 129 0
          { r with outer_iterations := r.outer_iterations + 1 } with
      | some r1 => lut_outer_fuel fuel (i >>> 1) (lut_next_crc32 crc32) r1
      | none => none
    else some r

/-! ## One bit of a reflected polynomial division, for any polynomial -/

/-- One bit of the reflected division by the polynomial with constant `P`;
`crc32_bit`, `lut_next_crc32` and `crc32c_bit` are instances of it. -/
def poly_step (P x : Nat) : Nat :=
  (x / 2) ^^^ (if x % 2 = 1 then P else 0)

/-! ## Derived notions used in the statements -/

/-- A chain of calls `.crc32(v1).crc32(v2)...` on the engine, one per element
of `values`. -/
def Crc32.accumulate (t : Target) (self : Crc32) (values : List (List Nat)) : Crc32 :=
  values.foldl (fun e v => e.crc32 t v) self

/-- The lookup table is either all zero or the fully populated table. -/
def Crc32.TableOk (self : Crc32) : Prop :=
  self.m_computed_crc32_lut = List.replicate 256 0 ∨ self.m_computed_crc32_lut = crc32_table

/-- A 64-bit build with neither `_MSC_VER` nor `__SSE4_2__`: the constructor
selects the software strategy. -/
def target_software : Target :=
  { msc_ver := false, cpuid_ecx := 0, sse4_2 := false, x64 := true }

/-- A 64-bit build with `__SSE4_2__` defined: the constructor selects the
hardware strategy. -/
def target_sse42 : Target :=
  { msc_ver := false, cpuid_ecx := 0, sse4_2 := true, x64 := true }

/-- The nine ASCII bytes of "123456789". -/
def check_bytes : List Nat :=
  [0x31, 0x32, 0x33, 0x34, 0x35, 0x36, 0x37, 0x38, 0x39]

/-- The engine after a sequence of calls, made in order. -/
def Crc32.run (t : Target) (self : Crc32) (calls : List Call) : Crc32 :=
  calls.foldl (fun e c => e.call t c) self

/-- A call other than `crc32`, that is one of `seed`, `reset` and `get`. -/
def Call.NotAccumulate : Call → Prop
  | .crc32 _ => False
  | _ => True

/-- The per-byte update in the words of the specification:
`running_value = (running_value >> 8) XOR table[(running_value XOR b) & 0xFF]`. -/
def spec_byte_step (table : List Nat) (running_value b : Nat) : Nat :=
  (running_value >>> 8) ^^^ table.getD ((running_value ^^^ b) &&& 0xFF) 0

/-- The object representation of `float` 2.5 on a little-endian target
(IEEE-754 single `0x40200000`): the argument of `crc32(vec2.x)` in `main`. -/
def float_2_5_bytes : List Nat :=
  [0x00, 0x00, 0x20, 0x40]

/-- The object representation of `bool` `true`: the argument of `crc32(change)`
in `main`. -/
def bool_true_bytes : List Nat :=
  [0x01]

/-- The number whose little-endian bytes are the given list. -/
def le_bytes : List Nat → Nat
  | [] => 0
  | b :: rest => b + le_bytes rest <<< 8

/-- The quadword loaded from an eight-byte chunk `ch` of the buffer. -/
def load_u64_at (ch : List Nat) : Nat :=
  load_u64 (ch.getD 0 0) (ch.getD 1 0) (ch.getD 2 0) (ch.getD 3 0)
    (ch.getD 4 0) (ch.getD 5 0) (ch.getD 6 0) (ch.getD 7 0)

/-- The bytewise XOR of two byte sequences. -/
def xor_bytes (S1 S2 : List Nat) : List Nat :=
  List.zipWith (fun x y => x ^^^ y) S1 S2

/-- The ghost observations of a run of the table loops. -/
def lut_ghost (r : LutRun) : Nat × List (Nat × Nat) :=
  (r.outer_iterations, r.visited)

/-- The pairs `(i, j)` with `i` running over 128, 64, ..., 1 and, for each `i`,
`j` running over the multiples of `2 * i` below 256, in increasing order. -/
def lut_expected_visits : List (Nat × Nat) :=
  [128, 64, 32, 16, 8, 4, 2, 1].flatMap fun i =>
    (List.range (128 / i)).map fun k => (i, 2 * i * k)

/-! # Theorems -/

/-! ## Agreement of the loops with their unrolling -/

theorem lut_inner_loop_of_fuel (i : Nat) (hi : i ≠ 0) (crc32 : Nat) :
    ∀ (fuel j : Nat) (r r1 : LutRun),
      lut_inner_fuel i crc32 fuel j r = some r1 → lut_inner_loop i hi crc32 j r = r1 := by
  intro fuel
  induction fuel with
  | zero => intro j r r1 h; simp [lut_inner_fuel] at h
  | succ n ih =>
    intro j r r1 h
    rw [lut_inner_loop]
    rw [lut_inner_fuel] at h
    split at h
    · rename_i hj
      rw [if_pos hj]
      exact ih _ _ _ h
    · rename_i hj
      rw [if_neg hj]
      exact Option.some.inj h

theorem lut_outer_loop_of_fuel :
    ∀ (fuel i crc32 : Nat) (r r1 : LutRun),
      lut_outer_fuel fuel i crc32 r = some r1 → lut_outer_loop i crc32 r = r1 := by
  intro fuel
  induction fuel with
  | zero => intro i crc32 r r1 h; simp [lut_outer_fuel] at h
  | succ n ih =>
    intro i crc32 r r1 h
    rw [lut_outer_loop]
    rw [lut_outer_fuel] at h
    split at h
    · rename_i hi
      rw [dif_pos hi]
      split at h
      · rename_i r2 h2
        show lut_outer_loop (i >>> 1) (lut_next_crc32 crc32) (lut_inner_loop i hi _ 0 _) = r1
        rw [lut_inner_loop_of_fuel i hi _ _ _ _ _ h2]
        exact ih _ _ _ _ h
      · exact absurd h (by simp)
    · rename_i hi
      rw [dif_neg hi]
      exact Option.some.inj h

/-- The run of the table generation on the all-zero array: the reference table,
8 outer iterations. -/
theorem lut_table_run_zero_lut :
    (lut_table_run (List.replicate 256 0)).lut = crc32_table ∧
    (lut_table_run (List.replicate 256 0)).outer_iterations = 8 := by
  have h : ∃ r, lut_outer_fuel 9 128 1 ⟨List.replicate 256 0, 0, []⟩ = some r ∧
      r.lut = crc32_table ∧ r.outer_iterations = 8 := by
    decide
  obtain ⟨r, h1, h2⟩ := h
  rw [lut_table_run, lut_outer_loop_of_fuel _ _ _ _ _ h1]
  exact h2

/-! ## Algebra of the bit step -/

theorem lut_next_crc32_eq_poly_step (x : Nat) : lut_next_crc32 x = poly_step 0xEDB88320 x := by
  unfold lut_next_crc32 poly_step
  rw [Nat.and_one_is_mod, Nat.shiftRight_one]
  rcases Nat.mod_two_eq_zero_or_one x with h | h <;> simp [h]

theorem crc32_bit_eq_poly_step (x : Nat) : crc32_bit x = poly_step 0xEDB88320 x := by
  unfold crc32_bit poly_step
  rcases Nat.mod_two_eq_zero_or_one x with h | h <;> simp [h]

theorem crc32c_bit_eq_poly_step (x : Nat) : crc32c_bit x = poly_step 0x82F63B78 x := by
  unfold crc32c_bit poly_step
  rw [Nat.and_one_is_mod, Nat.shiftRight_one]
  rcases Nat.mod_two_eq_zero_or_one x with h | h <;> simp [h]

theorem crc32_bit_fun_eq : crc32_bit = poly_step 0xEDB88320 :=
  funext crc32_bit_eq_poly_step

theorem xor_xor_xor_swap (a b c d : Nat) :
    (a ^^^ b) ^^^ (c ^^^ d) = (a ^^^ c) ^^^ (b ^^^ d) := by
  apply Nat.eq_of_testBit_eq
  intro i
  simp only [Nat.testBit_xor]
  cases a.testBit i <;> cases b.testBit i <;> cases c.testBit i <;> cases d.testBit i <;> rfl

theorem poly_step_xor (P x y : Nat) :
    poly_step P (x ^^^ y) = poly_step P x ^^^ poly_step P y := by
  unfold poly_step
  have hp : (if (x ^^^ y) % 2 = 1 then P else 0) =
      (if x % 2 = 1 then P else 0) ^^^ (if y % 2 = 1 then P else 0) := by
    rw [Nat.xor_mod_two_eq, Nat.add_mod x y 2]
    rcases Nat.mod_two_eq_zero_or_one x with hx | hx <;>
      rcases Nat.mod_two_eq_zero_or_one y with hy | hy <;>
      rw [hx, hy] <;> simp
  rw [Nat.xor_div_two, hp, xor_xor_xor_swap]

theorem poly_step_iterate_xor (P : Nat) (k : Nat) (x y : Nat) :
    (poly_step P)^[k] (x ^^^ y) = (poly_step P)^[k] x ^^^ (poly_step P)^[k] y := by
  induction k generalizing x y with
  | zero => rfl
  | succ n ih =>
    rw [Function.iterate_succ_apply, Function.iterate_succ_apply, Function.iterate_succ_apply,
      poly_step_xor, ih]

theorem poly_step_two_mul (P y : Nat) : poly_step P (2 * y) = y := by
  unfold poly_step
  simp

theorem poly_step_iterate_shiftLeft (P : Nat) (k : Nat) (y : Nat) :
    (poly_step P)^[k] (y <<< k) = y := by
  induction k generalizing y with
  | zero => simp
  | succ n ih =>
    rw [Function.iterate_succ_apply]
    have h : y <<< (n + 1) = 2 * (y <<< n) := by
      rw [Nat.shiftLeft_eq, Nat.shiftLeft_eq, Nat.pow_succ]
      ring
    rw [h, poly_step_two_mul, ih]

theorem split_low_bits (x k : Nat) : x = ((x >>> k) <<< k) ^^^ (x % 2 ^ k) := by
  apply Nat.eq_of_testBit_eq
  intro i
  rw [Nat.testBit_xor, Nat.testBit_shiftLeft, Nat.testBit_shiftRight, Nat.testBit_mod_two_pow]
  by_cases h : i < k
  · have h1 : ¬ i ≥ k := by omega
    simp [h, h1]
  · have h1 : i ≥ k := by omega
    have h2 : k + (i - k) = i := by omega
    simp [h, h1, h2]

/-- The `k`-bit division splits into the untouched high part and the division
of the low `k` bits: the identity behind every table-driven CRC. -/
theorem poly_step_iterate_split (P k x : Nat) :
    (poly_step P)^[k] x = (x >>> k) ^^^ (poly_step P)^[k] (x % 2 ^ k) := by
  conv_lhs => rw [split_low_bits x k]
  rw [poly_step_iterate_xor, poly_step_iterate_shiftLeft]

theorem crc32_table_length : crc32_table.length = 256 := by
  simp [crc32_table]

theorem crc32_table_getD (m : Nat) (h : m < 256) :
    crc32_table.getD m 0 = crc32_bit^[8] m := by
  unfold crc32_table
  rw [List.getD_eq_getElem?_getD, List.getElem?_map, List.getElem?_range h]
  rfl

/-- One pass of the loop body of `m_compute_crc32` with the populated table is
one byte of the bit-at-a-time CRC. -/
theorem table_step_eq_crc32_byte (c b : Nat) :
    ((c ^^^ b) >>> 8) ^^^ crc32_table.getD ((c ^^^ b) &&& 0xFF) 0 = crc32_byte c b := by
  have hm : (c ^^^ b) &&& 0xFF = (c ^^^ b) % 2 ^ 8 := Nat.and_pow_two_sub_one_eq_mod _ 8
  have hlt : (c ^^^ b) % 2 ^ 8 < 256 := Nat.mod_lt _ (by decide)
  rw [hm, crc32_table_getD _ hlt]
  unfold crc32_byte
  rw [crc32_bit_fun_eq]
  exact (poly_step_iterate_split _ 8 (c ^^^ b)).symm

theorem m_compute_crc32_loop_populated (c : Nat) (S : List Nat) :
    m_compute_crc32_loop crc32_table c S = crc32_bitwise c S := by
  induction S generalizing c with
  | nil => rfl
  | cons b rest ih =>
    unfold crc32_bitwise
    rw [m_compute_crc32_loop, List.foldl_cons, table_step_eq_crc32_byte, ih]
    rfl

/-! ## The engine on the software strategy -/

theorem crc32_table_sentinel : crc32_table.getD 255 0 = 0x2D02EF8D := by
  decide

theorem ensure_lut_of_zero (s : Crc32) (h : s.m_computed_crc32_lut = List.replicate 256 0) :
    s.ensure_lut = { s with m_computed_crc32_lut := crc32_table } := by
  unfold Crc32.ensure_lut Crc32.m_compute_crc32_lut_table
  rw [h, if_pos (by decide), lut_table_run_zero_lut.1]

theorem ensure_lut_of_populated (s : Crc32) (h : s.m_computed_crc32_lut = crc32_table) :
    s.ensure_lut = s := by
  unfold Crc32.ensure_lut
  rw [h, crc32_table_sentinel, if_neg (by decide)]

theorem ensure_lut_of_tableOk (s : Crc32) (h : s.TableOk) :
    s.ensure_lut = { s with m_computed_crc32_lut := crc32_table } := by
  rcases h with h | h
  · exact ensure_lut_of_zero s h
  · rw [ensure_lut_of_populated s h]
    cases s
    simp only at h
    rw [h]

theorem m_compute_crc32_of_tableOk (s : Crc32) (h : s.TableOk) (c : Nat) (S : List Nat) :
    s.m_compute_crc32 c S =
      ({ s with m_computed_crc32_lut := crc32_table }, crc32_bitwise c S) := by
  unfold Crc32.m_compute_crc32
  simp only [ensure_lut_of_tableOk s h, m_compute_crc32_loop_populated]

theorem crc32_software (t : Target) (s : Crc32) (hf : s.m_has_sse42 = false) (h : s.TableOk)
    (S : List Nat) :
    s.crc32 t S = ⟨false, crc32_table, crc32_bitwise s.m_crc32_value S⟩ := by
  unfold Crc32.crc32
  rw [hf, m_compute_crc32_of_tableOk s h]
  simp [hf]

theorem crc32_hardware (t : Target) (s : Crc32) (hf : s.m_has_sse42 = true) (S : List Nat) :
    s.crc32 t S =
      { s with m_crc32_value := Crc32.m_compute_crc32_sse4 t s.m_crc32_value S } := by
  unfold Crc32.crc32
  rw [hf]
  simp

theorem crc32_bitwise_append (c : Nat) (a b : List Nat) :
    crc32_bitwise c (a ++ b) = crc32_bitwise (crc32_bitwise c a) b := by
  unfold crc32_bitwise
  exact List.foldl_append _ _ _ _

theorem accumulate_software (t : Target) (values : List (List Nat)) :
    ∀ (s : Crc32), s.m_has_sse42 = false → s.TableOk →
      (s.accumulate t values).m_has_sse42 = false ∧ (s.accumulate t values).TableOk ∧
      (s.accumulate t values).m_crc32_value = crc32_bitwise s.m_crc32_value values.flatten := by
  induction values with
  | nil => intro s hf h; exact ⟨hf, h, rfl⟩
  | cons v rest ih =>
    intro s hf h
    have hs := crc32_software t s hf h v
    have h1 := ih (s.crc32 t v) (by rw [hs]) (by rw [hs]; exact Or.inr rfl)
    have hv : (s.crc32 t v).m_crc32_value = crc32_bitwise s.m_crc32_value v := by rw [hs]
    have hacc : s.accumulate t (v :: rest) = (s.crc32 t v).accumulate t rest := rfl
    rw [hacc, List.flatten_cons, crc32_bitwise_append, ← hv]
    exact h1

theorem flatten_singletons (S : List Nat) : (S.map fun b => [b]).flatten = S := by
  induction S with
  | nil => rfl
  | cons b rest ih => rw [List.map_cons, List.flatten_cons, ih]; rfl

theorem ctor_tableOk (t : Target) : (Crc32.ctor t).TableOk :=
  Or.inl rfl

theorem get_snd (s : Crc32) : s.get.2 = s.m_crc32_value ^^^ 0xFFFFFFFF :=
  rfl

/-- The digest of a software-strategy engine after a chain of calls. -/
theorem digest_software (t : Target) (s : Crc32) (values : List (List Nat))
    (hf : s.m_has_sse42 = false) (h : s.TableOk) :
    (s.accumulate t values).get.2 =
      crc32_bitwise s.m_crc32_value values.flatten ^^^ 0xFFFFFFFF := by
  rw [get_snd, (accumulate_software t values s hf h).2.2]

theorem ctor_value (t : Target) : (Crc32.ctor t).m_crc32_value = 0 :=
  rfl

theorem seed_value (s : Crc32) (v : Nat) : (s.seed v).m_crc32_value = v :=
  rfl

theorem seed_flag (s : Crc32) (v : Nat) : (s.seed v).m_has_sse42 = s.m_has_sse42 :=
  rfl

theorem seed_tableOk (s : Crc32) (v : Nat) (h : s.TableOk) : (s.seed v).TableOk :=
  h

theorem accumulate_singleton (t : Target) (s : Crc32) (S : List Nat) :
    s.accumulate t [S] = s.crc32 t S :=
  rfl

/-! ## Invariants of the reachable states -/

theorem crc32_flag (t : Target) (s : Crc32) (S : List Nat) :
    (s.crc32 t S).m_has_sse42 = s.m_has_sse42 := by
  unfold Crc32.crc32 Crc32.m_compute_crc32 Crc32.ensure_lut Crc32.m_compute_crc32_lut_table
  cases hf : s.m_has_sse42
  · simp only [Bool.false_eq_true, if_false]
    split
    · rfl
    · exact hf
  · simp only [if_true]

theorem crc32_tableOk (t : Target) (s : Crc32) (h : s.TableOk) (S : List Nat) :
    (s.crc32 t S).TableOk := by
  cases hf : s.m_has_sse42
  · rw [crc32_software t s hf h]
    exact Or.inr rfl
  · rw [crc32_hardware t s hf]
    exact h

theorem crc32_hardware_lut (t : Target) (s : Crc32) (hf : s.m_has_sse42 = true) (S : List Nat) :
    (s.crc32 t S).m_computed_crc32_lut = s.m_computed_crc32_lut := by
  rw [crc32_hardware t s hf]

/-- In every reachable state the hardware flag is the one chosen by the
constructor, the table is all zero or populated, and it is all zero while the
flag is set. -/
theorem reachable_invariant (t : Target) (s : Crc32) (h : Crc32.Reachable t s) :
    s.m_has_sse42 = (Crc32.ctor t).m_has_sse42 ∧ s.TableOk ∧
    (s.m_has_sse42 = true → s.m_computed_crc32_lut = List.replicate 256 0) := by
  induction h with
  | ctor => exact ⟨rfl, ctor_tableOk t, fun _ => rfl⟩
  | call s c _ _ ih =>
    cases c with
    | seed v => exact ih
    | reset v => exact ih
    | get => exact ih
    | crc32 bytes =>
      refine ⟨?_, ?_, ?_⟩
      · show (s.crc32 t bytes).m_has_sse42 = _
        rw [crc32_flag]
        exact ih.1
      · exact crc32_tableOk t s ih.2.1 bytes
      · intro hf
        have hf1 : (s.crc32 t bytes).m_has_sse42 = true := hf
        rw [crc32_flag] at hf1
        show (s.crc32 t bytes).m_computed_crc32_lut = _
        rw [crc32_hardware_lut t s hf1]
        exact ih.2.2 hf1

/-- The running value after a chain of calls depends only on the hardware flag
and the running value before it, as long as the table is all zero or
populated. -/
theorem accumulate_value_congr (t : Target) (values : List (List Nat)) :
    ∀ (s1 s2 : Crc32), s1.m_has_sse42 = s2.m_has_sse42 → s1.m_crc32_value = s2.m_crc32_value →
      s1.TableOk → s2.TableOk →
      (s1.accumulate t values).m_crc32_value = (s2.accumulate t values).m_crc32_value := by
  induction values with
  | nil => intro s1 s2 _ hv _ _; exact hv
  | cons v rest ih =>
    intro s1 s2 hf hv h1 h2
    have e1 : s1.accumulate t (v :: rest) = (s1.crc32 t v).accumulate t rest := rfl
    have e2 : s2.accumulate t (v :: rest) = (s2.crc32 t v).accumulate t rest := rfl
    rw [e1, e2]
    apply ih
    · rw [crc32_flag, crc32_flag, hf]
    · cases hf2 : s2.m_has_sse42
      · rw [crc32_software t s1 (hf.trans hf2) h1, crc32_software t s2 hf2 h2, hv]
      · rw [crc32_hardware t s1 (hf.trans hf2), crc32_hardware t s2 hf2]
        simp only
        rw [hv]
    · exact crc32_tableOk t s1 h1 v
    · exact crc32_tableOk t s2 h2 v

/-! ## The bit step on 32-bit values: closure and injectivity -/

theorem poly_step_lt (P x : Nat) (hP : P < 2 ^ 32) (hx : x < 2 ^ 32) :
    poly_step P x < 2 ^ 32 := by
  unfold poly_step
  apply Nat.xor_lt_two_pow
  · omega
  · split
    · exact hP
    · decide

theorem poly_step_iterate_lt (P : Nat) (hP : P < 2 ^ 32) (k : Nat) (x : Nat) (hx : x < 2 ^ 32) :
    (poly_step P)^[k] x < 2 ^ 32 := by
  induction k generalizing x with
  | zero => exact hx
  | succ n ih =>
    rw [Function.iterate_succ_apply]
    exact ih _ (poly_step_lt P x hP hx)

theorem poly_step_testBit_top (P x : Nat) (hP : P.testBit 31 = true) (hx : x < 2 ^ 32) :
    (poly_step P x).testBit 31 = decide (x % 2 = 1) := by
  unfold poly_step
  have h2 : (x / 2).testBit 31 = false := Nat.testBit_lt_two_pow (by omega)
  rw [Nat.testBit_xor, h2]
  by_cases h : x % 2 = 1
  · simp [h, hP]
  · simp [h]

theorem poly_step_injective (P x y : Nat) (hP : P.testBit 31 = true)
    (hx : x < 2 ^ 32) (hy : y < 2 ^ 32) (h : poly_step P x = poly_step P y) : x = y := by
  have hx1 := poly_step_testBit_top P x hP hx
  have hy1 := poly_step_testBit_top P y hP hy
  rw [h, hy1] at hx1
  have hpar : (x % 2 = 1) ↔ (y % 2 = 1) := by
    constructor
    · intro hxp
      have := hx1.symm
      simp [hxp] at this
      exact this
    · intro hyp
      have := hx1
      simp [hyp] at this
      exact this
  unfold poly_step at h
  have hif : (if x % 2 = 1 then P else 0) = (if y % 2 = 1 then P else 0) := by
    by_cases hyp : y % 2 = 1
    · rw [if_pos hyp, if_pos (hpar.2 hyp)]
    · rw [if_neg hyp, if_neg (fun hxp => hyp (hpar.1 hxp))]
  rw [hif] at h
  have hdiv : x / 2 = y / 2 := Nat.xor_left_injective h
  by_cases hyp : y % 2 = 1
  · have := hpar.2 hyp
    omega
  · have : ¬ x % 2 = 1 := fun hxp => hyp (hpar.1 hxp)
    omega

theorem poly_step_iterate_injective (P : Nat) (hP : P.testBit 31 = true) (hP2 : P < 2 ^ 32)
    (k : Nat) (x y : Nat) (hx : x < 2 ^ 32) (hy : y < 2 ^ 32)
    (h : (poly_step P)^[k] x = (poly_step P)^[k] y) : x = y := by
  induction k generalizing x y with
  | zero => exact h
  | succ n ih =>
    rw [Function.iterate_succ_apply, Function.iterate_succ_apply] at h
    exact poly_step_injective P x y hP hx hy
      (ih _ _ (poly_step_lt P x hP2 hx) (poly_step_lt P y hP2 hy) h)

theorem byte_lt_two_pow_32 (b : Nat) (hb : b < 256) : b < 2 ^ 32 := by
  omega

theorem crc32_byte_lt (c b : Nat) (hc : c < 2 ^ 32) (hb : b < 256) : crc32_byte c b < 2 ^ 32 := by
  unfold crc32_byte
  rw [crc32_bit_fun_eq]
  exact poly_step_iterate_lt _ (by decide) 8 _
    (Nat.xor_lt_two_pow hc (byte_lt_two_pow_32 b hb))

theorem crc32_byte_injective (c1 c2 b : Nat) (h1 : c1 < 2 ^ 32) (h2 : c2 < 2 ^ 32)
    (hb : b < 256) (h : crc32_byte c1 b = crc32_byte c2 b) : c1 = c2 := by
  unfold crc32_byte at h
  rw [crc32_bit_fun_eq] at h
  have hb32 := byte_lt_two_pow_32 b hb
  have := poly_step_iterate_injective _ (by decide) (by decide) 8 _ _
    (Nat.xor_lt_two_pow h1 hb32) (Nat.xor_lt_two_pow h2 hb32) h
  exact Nat.xor_left_injective this

theorem crc32_bitwise_lt (S : List Nat) (hS : ∀ b ∈ S, b < 256) :
    ∀ c, c < 2 ^ 32 → crc32_bitwise c S < 2 ^ 32 := by
  induction S with
  | nil => intro c hc; exact hc
  | cons b rest ih =>
    intro c hc
    have hb : b < 256 := hS b (List.mem_cons_self _ _)
    have hrest : ∀ x ∈ rest, x < 256 := fun x hx => hS x (List.mem_cons_of_mem _ hx)
    exact ih hrest _ (crc32_byte_lt c b hc hb)

/-- For a fixed byte sequence the bit-at-a-time register is an injective
function of its 32-bit start value. -/
theorem crc32_bitwise_injective (S : List Nat) (hS : ∀ b ∈ S, b < 256) :
    ∀ c1 c2, c1 < 2 ^ 32 → c2 < 2 ^ 32 → crc32_bitwise c1 S = crc32_bitwise c2 S → c1 = c2 := by
  induction S with
  | nil => intro c1 c2 _ _ h; exact h
  | cons b rest ih =>
    intro c1 c2 h1 h2 h
    have hb : b < 256 := hS b (List.mem_cons_self _ _)
    have hrest : ∀ x ∈ rest, x < 256 := fun x hx => hS x (List.mem_cons_of_mem _ hx)
    exact crc32_byte_injective c1 c2 b h1 h2 hb
      (ih hrest _ _ (crc32_byte_lt c1 b h1 hb) (crc32_byte_lt c2 b h2 hb) h)

/-! ## Table generation on an arbitrary 256-entry array

Only entry 0 of the array is read before it is written, so the run produces the
reference table XOR-ed with that entry. -/

theorem getD_set_self (l : List Nat) (a v : Nat) (h : a < l.length) :
    (l.set a v).getD a 0 = v := by
  rw [List.getD_eq_getElem?_getD, List.getElem?_set, if_pos rfl, if_pos h]
  rfl

theorem getD_set_other (l : List Nat) (a m v : Nat) (h : a ≠ m) :
    (l.set a v).getD m 0 = l.getD m 0 := by
  rw [List.getD_eq_getElem?_getD, List.getElem?_set, if_neg h, List.getD_eq_getElem?_getD]

theorem crc32_table_pair : ∀ i ∈ [128, 64, 32, 16, 8, 4, 2, 1], ∀ j < 256, j % (2 * i) = 0 →
    crc32_table.getD (i + j) 0 = crc32_table.getD i 0 ^^^ crc32_table.getD j 0 := by
  decide

theorem lut_next_crc32_table :
    ∀ k < 7, lut_next_crc32 (crc32_table.getD (2 ^ (k + 1)) 0) = crc32_table.getD (2 ^ k) 0 := by
  decide

theorem lut_inner_body_lut (i crc32 j : Nat) (r : LutRun) :
    (lut_inner_body i crc32 j r).lut = r.lut.set (i + j) (crc32 ^^^ r.lut.getD j 0) :=
  rfl

/-- The inner loop for bit `i`, entered at `j`: it keeps the entries at
multiples of `2 * i` and completes those at odd multiples of `i`. -/
theorem lut_inner_loop_spec (x0 i : Nat) (hi : i ≠ 0) (hmem : i ∈ [128, 64, 32, 16, 8, 4, 2, 1]) :
    ∀ (n j : Nat) (r : LutRun), 256 - j ≤ n → j % (2 * i) = 0 → r.lut.length = 256 →
      (∀ m < 256, m % (2 * i) = 0 → r.lut.getD m 0 = crc32_table.getD m 0 ^^^ x0) →
      (∀ m < 256, m % (2 * i) = i → m < j → r.lut.getD m 0 = crc32_table.getD m 0 ^^^ x0) →
      (lut_inner_loop i hi (crc32_table.getD i 0) j r).lut.length = 256 ∧
      (∀ m < 256, m % i = 0 →
        (lut_inner_loop i hi (crc32_table.getD i 0) j r).lut.getD m 0 =
          crc32_table.getD m 0 ^^^ x0) := by
  have hpair := crc32_table_pair i hmem
  have hcases : i = 128 ∨ i = 64 ∨ i = 32 ∨ i = 16 ∨ i = 8 ∨ i = 4 ∨ i = 2 ∨ i = 1 := by
    simpa using hmem
  intro n
  induction n with
  | zero =>
    intro j r hn hj hlen hA hB
    rw [lut_inner_loop, if_neg (by omega)]
    refine ⟨hlen, ?_⟩
    intro m hm hmi
    have h01 : m % (2 * i) = 0 ∨ m % (2 * i) = i := by
      rcases hcases with h | h | h | h | h | h | h | h <;> subst h <;> omega
    rcases h01 with h0 | h1
    · exact hA m hm h0
    · exact hB m hm h1 (by omega)
  | succ n ih =>
    intro j r hn hj hlen hA hB
    rw [lut_inner_loop]
    by_cases hlt : j < 256
    · rw [if_pos hlt]
      have hij : i + j < 256 := by
        rcases hcases with h | h | h | h | h | h | h | h <;> subst h <;> omega
      have hmod : (i + j) % (2 * i) = i := by
        rcases hcases with h | h | h | h | h | h | h | h <;> subst h <;> omega
      apply ih
      · omega
      · rcases hcases with h | h | h | h | h | h | h | h <;> subst h <;> omega
      · rw [lut_inner_body_lut, List.length_set]
        exact hlen
      · intro m hm hm0
        have hne : i + j ≠ m := by
          intro heq
          rw [heq, hm0] at hmod
          exact hi hmod.symm
        rw [lut_inner_body_lut, getD_set_other _ _ _ _ hne]
        exact hA m hm hm0
      · intro m hm hmi hmj
        rw [lut_inner_body_lut]
        by_cases heq : i + j = m
        · subst heq
          rw [getD_set_self _ _ _ (by omega), hA j hlt hj, hpair j hlt hj, Nat.xor_assoc]
        · rw [getD_set_other _ _ _ _ heq]
          apply hB m hm hmi
          rcases hcases with h | h | h | h | h | h | h | h <;> subst h <;> omega
    · rw [if_neg hlt]
      refine ⟨hlen, ?_⟩
      intro m hm hmi
      have h01 : m % (2 * i) = 0 ∨ m % (2 * i) = i := by
        rcases hcases with h | h | h | h | h | h | h | h <;> subst h <;> omega
      rcases h01 with h0 | h1
      · exact hA m hm h0
      · exact hB m hm h1 (by omega)

theorem pow_two_mem_bits (k : Nat) (hk : k ≤ 7) : 2 ^ k ∈ [128, 64, 32, 16, 8, 4, 2, 1] := by
  interval_cases k <;> decide

theorem lut_inner_loop_outer_iterations (i : Nat) (hi : i ≠ 0) (crc32 : Nat) :
    ∀ (n j : Nat) (r : LutRun), 256 - j ≤ n →
      (lut_inner_loop i hi crc32 j r).outer_iterations = r.outer_iterations := by
  intro n
  induction n with
  | zero =>
    intro j r hn
    rw [lut_inner_loop, if_neg (by omega)]
  | succ n ih =>
    intro j r hn
    rw [lut_inner_loop]
    by_cases hlt : j < 256
    · rw [if_pos hlt, ih _ _ (by omega)]
      rfl
    · rw [if_neg hlt]

/-- The outer loop entered at bit `2 ^ k` with the entries at multiples of
`2 * 2 ^ k` in place: it completes the table. -/
theorem lut_outer_loop_spec (x0 : Nat) :
    ∀ (k : Nat), k ≤ 7 → ∀ (crc32 : Nat) (r : LutRun),
      lut_next_crc32 crc32 = crc32_table.getD (2 ^ k) 0 → r.lut.length = 256 →
      (∀ m < 256, m % (2 * 2 ^ k) = 0 → r.lut.getD m 0 = crc32_table.getD m 0 ^^^ x0) →
      (lut_outer_loop (2 ^ k) crc32 r).lut.length = 256 ∧
      (∀ m < 256, (lut_outer_loop (2 ^ k) crc32 r).lut.getD m 0 = crc32_table.getD m 0 ^^^ x0) := by
  intro k
  induction k with
  | zero =>
    intro _ crc32 r hcrc hlen hA
    have hi : (2 : Nat) ^ 0 ≠ 0 := by decide
    rw [lut_outer_loop, dif_pos hi]
    simp only
    rw [hcrc]
    have hin := lut_inner_loop_spec x0 (2 ^ 0) hi (by decide) 256 0
      { r with outer_iterations := r.outer_iterations + 1 } (by omega) (by decide) hlen hA
      (fun m _ _ hm0 => absurd hm0 (Nat.not_lt_zero m))
    have hz : (2 : Nat) ^ 0 >>> 1 = 0 := by decide
    rw [hz, lut_outer_loop, dif_neg (by decide)]
    exact ⟨hin.1, fun m hm => hin.2 m hm (by rw [Nat.pow_zero]; exact Nat.mod_one m)⟩
  | succ k ih =>
    intro hk crc32 r hcrc hlen hA
    have hi : (2 : Nat) ^ (k + 1) ≠ 0 := by positivity
    rw [lut_outer_loop, dif_pos hi]
    simp only
    rw [hcrc]
    have hin := lut_inner_loop_spec x0 (2 ^ (k + 1)) hi (pow_two_mem_bits _ hk) 256 0
      { r with outer_iterations := r.outer_iterations + 1 } (by omega) (by simp) hlen hA
      (fun m _ _ hm0 => absurd hm0 (Nat.not_lt_zero m))
    have hz : (2 : Nat) ^ (k + 1) >>> 1 = 2 ^ k := by
      rw [Nat.shiftRight_one, Nat.pow_succ, Nat.mul_div_cancel _ (by decide)]
    rw [hz]
    apply ih (by omega) _ _ (lut_next_crc32_table k (by omega)) hin.1
    intro m hm hm0
    apply hin.2 m hm
    rw [Nat.pow_succ, Nat.mul_comm]
    exact hm0

theorem crc32_table_zero : crc32_table.getD 0 0 = 0 := by
  decide

/-- On any 256-entry array the table generation leaves a 256-entry array whose
entry `m` is the reference entry XOR the initial entry 0. -/
theorem lut_table_run_spec (lut : List Nat) (hlen : lut.length = 256) :
    (lut_table_run lut).lut.length = 256 ∧
    (∀ m < 256, (lut_table_run lut).lut.getD m 0 = crc32_table.getD m 0 ^^^ lut.getD 0 0) := by
  unfold lut_table_run
  have h := lut_outer_loop_spec (lut.getD 0 0) 7 (by omega) 1 ⟨lut, 0, []⟩ (by decide) hlen
  apply h
  intro m hm hm0
  have hm00 : m = 0 := by
    have : (2 : Nat) * 2 ^ 7 = 256 := by decide
    rw [this] at hm0
    omega
  subst hm00
  show lut.getD 0 0 = _
  rw [crc32_table_zero, Nat.zero_xor]

theorem list_eq_of_getD (l1 l2 : List Nat) (h1 : l1.length = 256) (h2 : l2.length = 256)
    (h : ∀ m < 256, l1.getD m 0 = l2.getD m 0) : l1 = l2 := by
  apply List.ext_getElem (h1.trans h2.symm)
  intro n hn1 hn2
  have := h n (by omega)
  rw [List.getD_eq_getElem _ _ hn1, List.getD_eq_getElem _ _ hn2] at this
  exact this

/-- Generating the table a second time changes nothing, whatever 256-entry
array the first generation started from. -/
theorem lut_table_run_idempotent (lut : List Nat) (hlen : lut.length = 256) :
    (lut_table_run (lut_table_run lut).lut).lut = (lut_table_run lut).lut := by
  have h1 := lut_table_run_spec lut hlen
  have h2 := lut_table_run_spec (lut_table_run lut).lut h1.1
  apply list_eq_of_getD _ _ h2.1 h1.1
  intro m hm
  rw [h2.2 m hm, h1.2 m hm, h1.2 0 (by decide), crc32_table_zero, Nat.zero_xor]

theorem ensure_lut_length (s : Crc32) (hlen : s.m_computed_crc32_lut.length = 256) :
    s.ensure_lut.m_computed_crc32_lut.length = 256 := by
  unfold Crc32.ensure_lut Crc32.m_compute_crc32_lut_table
  split
  · exact (lut_table_run_spec _ hlen).1
  · exact hlen

/-- After the lazy check of line 32 has run once, running it again (whatever
the running value has become) leaves the table as it is. -/
theorem ensure_lut_idempotent (s : Crc32) (hlen : s.m_computed_crc32_lut.length = 256)
    (f : Bool) (v : Nat) :
    Crc32.ensure_lut ⟨f, s.ensure_lut.m_computed_crc32_lut, v⟩ =
      ⟨f, s.ensure_lut.m_computed_crc32_lut, v⟩ := by
  unfold Crc32.ensure_lut Crc32.m_compute_crc32_lut_table
  by_cases h : s.m_computed_crc32_lut.getD 255 0 = 0
  · simp only [if_pos h]
    split
    · rw [lut_table_run_idempotent _ hlen]
    · rfl
  · simp only [if_neg h]

theorem m_compute_crc32_loop_append (lut : List Nat) (a b : List Nat) :
    ∀ c, m_compute_crc32_loop lut c (a ++ b) =
      m_compute_crc32_loop lut (m_compute_crc32_loop lut c a) b := by
  induction a with
  | nil => intro c; rfl
  | cons x rest ih =>
    intro c
    rw [List.cons_append, m_compute_crc32_loop, m_compute_crc32_loop, ih]

theorem crc32_software_unfold (t : Target) (s : Crc32) (hf : s.m_has_sse42 = false)
    (S : List Nat) :
    s.crc32 t S =
      ⟨s.ensure_lut.m_has_sse42, s.ensure_lut.m_computed_crc32_lut,
        m_compute_crc32_loop s.ensure_lut.m_computed_crc32_lut s.m_crc32_value S⟩ := by
  unfold Crc32.crc32 Crc32.m_compute_crc32
  rw [hf]
  simp

theorem ensure_lut_flag (s : Crc32) : s.ensure_lut.m_has_sse42 = s.m_has_sse42 := by
  unfold Crc32.ensure_lut Crc32.m_compute_crc32_lut_table
  split <;> rfl

theorem m_compute_crc32_lut_table_lut (s : Crc32) :
    s.m_compute_crc32_lut_table.m_computed_crc32_lut =
      (lut_table_run s.m_computed_crc32_lut).lut :=
  rfl

theorem lut_table_generation_length (s : Crc32) (hlen : s.m_computed_crc32_lut.length = 256) :
    s.m_compute_crc32_lut_table.m_computed_crc32_lut.length = 256 := by
  rw [m_compute_crc32_lut_table_lut]
  exact (lut_table_run_spec _ hlen).1

/-- Generating the table twice is generating it once, from any 256-entry
array. -/
theorem lut_table_generation_idempotent (s : Crc32)
    (hlen : s.m_computed_crc32_lut.length = 256) :
    s.m_compute_crc32_lut_table.m_compute_crc32_lut_table = s.m_compute_crc32_lut_table := by
  unfold Crc32.m_compute_crc32_lut_table
  simp only
  rw [lut_table_run_idempotent _ hlen]

theorem ctor_lut (t : Target) : (Crc32.ctor t).m_computed_crc32_lut = List.replicate 256 0 :=
  rfl

/-! ## Sequences of calls -/

theorem call_flag (t : Target) (s : Crc32) (c : Call) :
    (s.call t c).m_has_sse42 = s.m_has_sse42 := by
  cases c with
  | seed v => rfl
  | reset v => rfl
  | get => rfl
  | crc32 bytes => exact crc32_flag t s bytes

theorem run_cons (t : Target) (s : Crc32) (c : Call) (calls : List Call) :
    s.run t (c :: calls) = (s.call t c).run t calls :=
  rfl

theorem run_flag (t : Target) (calls : List Call) :
    ∀ s : Crc32, (s.run t calls).m_has_sse42 = s.m_has_sse42 := by
  induction calls with
  | nil => intro s; rfl
  | cons c rest ih =>
    intro s
    rw [run_cons, ih, call_flag]

theorem call_notAccumulate_lut (t : Target) (s : Crc32) (c : Call) (h : c.NotAccumulate) :
    (s.call t c).m_computed_crc32_lut = s.m_computed_crc32_lut := by
  cases c with
  | seed v => rfl
  | reset v => rfl
  | get => rfl
  | crc32 bytes => exact absurd h (fun hf => hf)

theorem run_notAccumulate_lut (t : Target) (calls : List Call) :
    ∀ s : Crc32, (∀ c ∈ calls, c.NotAccumulate) →
      (s.run t calls).m_computed_crc32_lut = s.m_computed_crc32_lut := by
  induction calls with
  | nil => intro s _; rfl
  | cons c rest ih =>
    intro s h
    rw [run_cons, ih _ (fun x hx => h x (List.mem_cons_of_mem _ hx)),
      call_notAccumulate_lut t s c (h c (List.mem_cons_self _ _))]

theorem call_hardware_lut (t : Target) (s : Crc32) (c : Call) (hf : s.m_has_sse42 = true) :
    (s.call t c).m_computed_crc32_lut = s.m_computed_crc32_lut := by
  cases c with
  | seed v => rfl
  | reset v => rfl
  | get => rfl
  | crc32 bytes => exact crc32_hardware_lut t s hf bytes

theorem run_hardware_lut (t : Target) (calls : List Call) :
    ∀ s : Crc32, s.m_has_sse42 = true →
      (s.run t calls).m_computed_crc32_lut = s.m_computed_crc32_lut := by
  induction calls with
  | nil => intro s _; rfl
  | cons c rest ih =>
    intro s hf
    rw [run_cons, ih _ ((call_flag t s c).trans hf), call_hardware_lut t s c hf]

theorem call_populated (t : Target) (s : Crc32) (c : Call) (hf : s.m_has_sse42 = false)
    (h : s.m_computed_crc32_lut = crc32_table) :
    (s.call t c).m_computed_crc32_lut = crc32_table := by
  cases c with
  | seed v => exact h
  | reset v => exact h
  | get => exact h
  | crc32 bytes =>
    show (s.crc32 t bytes).m_computed_crc32_lut = crc32_table
    rw [crc32_software t s hf (Or.inr h)]

theorem run_populated (t : Target) (calls : List Call) :
    ∀ s : Crc32, s.m_has_sse42 = false → s.m_computed_crc32_lut = crc32_table →
      (s.run t calls).m_computed_crc32_lut = crc32_table := by
  induction calls with
  | nil => intro s _ h; exact h
  | cons c rest ih =>
    intro s hf h
    rw [run_cons]
    exact ih _ ((call_flag t s c).trans hf) (call_populated t s c hf h)

theorem replicate_sentinel : (List.replicate 256 0).getD 255 0 = 0 := by
  decide

/-! ## The hardware strategy: eight-byte steps against one-byte steps -/

theorem add_shiftLeft_eq_xor (b R : Nat) (hb : b < 256) : b + R <<< 8 = (R <<< 8) ^^^ b := by
  have h := split_low_bits (b + R <<< 8) 8
  have h1 : (b + R <<< 8) >>> 8 = R := by
    rw [Nat.shiftRight_eq_div_pow, Nat.shiftLeft_eq, Nat.add_mul_div_right _ _ (by decide)]
    have : b / 2 ^ 8 = 0 := Nat.div_eq_of_lt hb
    omega
  have h2 : (b + R <<< 8) % 2 ^ 8 = b := by
    rw [Nat.shiftLeft_eq, Nat.add_mul_mod_self_right]
    exact Nat.mod_eq_of_lt hb
  rw [h1, h2] at h
  exact h

theorem poly_step_byte_shift (P c b R : Nat) (hb : b < 256) :
    (poly_step P)^[8] (c ^^^ (b + R <<< 8)) = (poly_step P)^[8] (c ^^^ b) ^^^ R := by
  rw [add_shiftLeft_eq_xor b R hb, Nat.xor_comm (R <<< 8) b, ← Nat.xor_assoc,
    poly_step_iterate_xor, poly_step_iterate_shiftLeft]

/-- Dividing out all the bits of a little-endian number at once is dividing out
its bytes one after the other. -/
theorem poly_step_le_bytes (P : Nat) (L : List Nat) (hL : ∀ b ∈ L, b < 256) :
    ∀ c, (poly_step P)^[8 * L.length] (c ^^^ le_bytes L) =
      L.foldl (fun a b => (poly_step P)^[8] (a ^^^ b)) c := by
  induction L with
  | nil => intro c; simp [le_bytes]
  | cons b rest ih =>
    intro c
    have hb : b < 256 := hL b (List.mem_cons_self _ _)
    have hrest : ∀ x ∈ rest, x < 256 := fun x hx => hL x (List.mem_cons_of_mem _ hx)
    have hlen : 8 * (b :: rest).length = 8 * rest.length + 8 := by
      rw [List.length_cons]
      omega
    rw [hlen, Function.iterate_add_apply, le_bytes, poly_step_byte_shift P c b _ hb,
      ih hrest, List.foldl_cons]

theorem crc32c_bit_fun_eq : crc32c_bit = poly_step 0x82F63B78 :=
  funext crc32c_bit_eq_poly_step

theorem mm_crc32_u8_eq (c b : Nat) : mm_crc32_u8 c b = (poly_step 0x82F63B78)^[8] (c ^^^ b) := by
  unfold mm_crc32_u8
  rw [crc32c_bit_fun_eq]

theorem sse4_tail_eq_foldl (L : List Nat) :
    ∀ c, m_compute_crc32_sse4_tail c L = L.foldl mm_crc32_u8 c := by
  induction L with
  | nil => intro c; rfl
  | cons b rest ih => intro c; rw [m_compute_crc32_sse4_tail, ih, List.foldl_cons]

theorem mm_crc32_u8_fun_eq :
    mm_crc32_u8 = fun a b => (poly_step 0x82F63B78)^[8] (a ^^^ b) :=
  funext fun c => funext fun b => mm_crc32_u8_eq c b

theorem mm_crc32_u8_lt (c b : Nat) (hc : c < 2 ^ 32) (hb : b < 256) :
    mm_crc32_u8 c b < 2 ^ 32 := by
  rw [mm_crc32_u8_eq]
  exact poly_step_iterate_lt _ (by decide) 8 _
    (Nat.xor_lt_two_pow hc (byte_lt_two_pow_32 b hb))

theorem foldl_mm_crc32_u8_lt (L : List Nat) (hL : ∀ b ∈ L, b < 256) :
    ∀ c, c < 2 ^ 32 → L.foldl mm_crc32_u8 c < 2 ^ 32 := by
  induction L with
  | nil => intro c hc; exact hc
  | cons b rest ih =>
    intro c hc
    rw [List.foldl_cons]
    exact ih (fun x hx => hL x (List.mem_cons_of_mem _ hx)) _
      (mm_crc32_u8_lt c b hc (hL b (List.mem_cons_self _ _)))

theorem load_u64_eq_le_bytes (b0 b1 b2 b3 b4 b5 b6 b7 : Nat) :
    load_u64 b0 b1 b2 b3 b4 b5 b6 b7 = le_bytes [b0, b1, b2, b3, b4, b5, b6, b7] := by
  simp only [load_u64, le_bytes, Nat.shiftLeft_eq]
  ring

/-- One eight-byte step of the hardware path is eight one-byte steps. -/
theorem mm_crc32_u64_eq_bytes (c b0 b1 b2 b3 b4 b5 b6 b7 : Nat) (hc : c < 2 ^ 32)
    (hL : ∀ b ∈ [b0, b1, b2, b3, b4, b5, b6, b7], b < 256) :
    mm_crc32_u64 c (load_u64 b0 b1 b2 b3 b4 b5 b6 b7) % 2 ^ 32 =
      [b0, b1, b2, b3, b4, b5, b6, b7].foldl mm_crc32_u8 c := by
  have h := poly_step_le_bytes 0x82F63B78 [b0, b1, b2, b3, b4, b5, b6, b7] hL c
  have hfold := foldl_mm_crc32_u8_lt [b0, b1, b2, b3, b4, b5, b6, b7] hL c hc
  unfold mm_crc32_u64
  rw [Nat.mod_eq_of_lt hc, crc32c_bit_fun_eq, load_u64_eq_le_bytes, mm_crc32_u8_fun_eq]
  rw [mm_crc32_u8_fun_eq] at hfold
  have h64 : 8 * [b0, b1, b2, b3, b4, b5, b6, b7].length = 64 := rfl
  rw [h64] at h
  rw [h]
  exact Nat.mod_eq_of_lt hfold

theorem length_lt_eight_of_no_chunk (L : List Nat)
    (h : ∀ (b0 b1 b2 b3 b4 b5 b6 b7 : Nat) (rest : List Nat),
      L = b0 :: b1 :: b2 :: b3 :: b4 :: b5 :: b6 :: b7 :: rest → False) :
    L.length < 8 := by
  rcases L with _ | ⟨b0, _ | ⟨b1, _ | ⟨b2, _ | ⟨b3, _ | ⟨b4, _ | ⟨b5, _ | ⟨b6, _ | ⟨b7, rest⟩⟩⟩⟩⟩⟩⟩⟩
  all_goals first
    | exact (h _ _ _ _ _ _ _ _ _ rfl).elim
    | (simp only [List.length_cons, List.length_nil]; omega)

theorem sse4_wide_chunk (c b0 b1 b2 b3 b4 b5 b6 b7 : Nat) (rest : List Nat) :
    m_compute_crc32_sse4_wide c (b0 :: b1 :: b2 :: b3 :: b4 :: b5 :: b6 :: b7 :: rest) =
      m_compute_crc32_sse4_wide
        (mm_crc32_u64 c (load_u64 b0 b1 b2 b3 b4 b5 b6 b7) % 2 ^ 32) rest := by
  rw [m_compute_crc32_sse4_wide]

/-- The eight-byte loop cuts the buffer into `n / 8` chunks of eight bytes, one
step each, and leaves the last `n % 8` bytes. -/
theorem sse4_wide_chunks (c : Nat) (S : List Nat) :
    ∃ chunks : List (List Nat),
      (∀ ch ∈ chunks, ch.length = 8) ∧
      chunks.length = S.length / 8 ∧
      chunks.flatten ++ (m_compute_crc32_sse4_wide c S).2 = S ∧
      (m_compute_crc32_sse4_wide c S).2.length = S.length % 8 ∧
      (m_compute_crc32_sse4_wide c S).1 =
        chunks.foldl (fun a ch => mm_crc32_u64 a (load_u64_at ch) % 2 ^ 32) c := by
  induction c, S using m_compute_crc32_sse4_wide.induct with
  | case1 c b0 b1 b2 b3 b4 b5 b6 b7 rest ih =>
    obtain ⟨chunks, h8, hlen, hflat, hmod, hval⟩ := ih
    refine ⟨[b0, b1, b2, b3, b4, b5, b6, b7] :: chunks, ?_, ?_, ?_, ?_, ?_⟩
    · intro ch hch
      rcases List.mem_cons.1 hch with h | h
      · rw [h]; rfl
      · exact h8 ch h
    · simp only [List.length_cons]
      omega
    · rw [sse4_wide_chunk, List.flatten_cons, List.append_assoc, hflat]
      rfl
    · rw [sse4_wide_chunk, hmod]
      simp only [List.length_cons]
      omega
    · rw [sse4_wide_chunk, hval, List.foldl_cons]
      rfl
  | case2 c rest hno =>
    have hlt := length_lt_eight_of_no_chunk rest hno
    rw [m_compute_crc32_sse4_wide.eq_2 c rest hno]
    refine ⟨[], ?_, ?_, ?_, ?_, ?_⟩
    · intro ch hch
      exact absurd hch (List.not_mem_nil ch)
    · simp only [List.length_nil]
      omega
    · rfl
    · simp only
      omega
    · rfl

/-- The eight-byte loop followed by one-byte steps over what it leaves ends at
the value of one-byte steps over the whole buffer. -/
theorem sse4_wide_fold (c : Nat) (S : List Nat) :
    c < 2 ^ 32 → (∀ b ∈ S, b < 256) →
      (m_compute_crc32_sse4_wide c S).2.foldl mm_crc32_u8 (m_compute_crc32_sse4_wide c S).1 =
        S.foldl mm_crc32_u8 c := by
  induction c, S using m_compute_crc32_sse4_wide.induct with
  | case1 c b0 b1 b2 b3 b4 b5 b6 b7 rest ih =>
    intro hc hS
    have hhead : ∀ b ∈ [b0, b1, b2, b3, b4, b5, b6, b7], b < 256 := by
      intro b hb
      apply hS b
      simp only [List.mem_cons, List.mem_singleton, List.not_mem_nil, or_false] at hb ⊢
      omega
    have hrest : ∀ b ∈ rest, b < 256 := by
      intro b hb
      apply hS b
      simp only [List.mem_cons]
      exact Or.inr (Or.inr (Or.inr (Or.inr (Or.inr (Or.inr (Or.inr (Or.inr hb)))))))
    rw [sse4_wide_chunk, ih (Nat.mod_lt _ (by decide)) hrest,
      mm_crc32_u64_eq_bytes c b0 b1 b2 b3 b4 b5 b6 b7 hc hhead]
    rfl
  | case2 c rest hno =>
    intro _ _
    rw [m_compute_crc32_sse4_wide.eq_2 c rest hno]

theorem m_compute_crc32_sse4_x64 (t : Target) (hx : t.x64 = true) (c : Nat) (S : List Nat) :
    Crc32.m_compute_crc32_sse4 t c S =
      (m_compute_crc32_sse4_wide c S).2.foldl mm_crc32_u8 (m_compute_crc32_sse4_wide c S).1 := by
  unfold Crc32.m_compute_crc32_sse4
  rw [hx, if_pos rfl, ← sse4_tail_eq_foldl]

/-- On a 64-bit target the hardware path returns the one-byte fold of the whole
buffer. -/
theorem m_compute_crc32_sse4_eq_fold (t : Target) (hx : t.x64 = true) (c : Nat) (S : List Nat)
    (hc : c < 2 ^ 32) (hS : ∀ b ∈ S, b < 256) :
    Crc32.m_compute_crc32_sse4 t c S = S.foldl mm_crc32_u8 c := by
  rw [m_compute_crc32_sse4_x64 t hx, sse4_wide_fold c S hc hS]

/-! ## Linearity and single-byte differences of the bit-at-a-time register -/

theorem crc32_byte_xor (c1 c2 b1 b2 : Nat) :
    crc32_byte (c1 ^^^ c2) (b1 ^^^ b2) = crc32_byte c1 b1 ^^^ crc32_byte c2 b2 := by
  unfold crc32_byte
  rw [crc32_bit_fun_eq, xor_xor_xor_swap, poly_step_iterate_xor]

theorem crc32_bitwise_xor (S1 : List Nat) :
    ∀ (S2 : List Nat) (c1 c2 : Nat), S1.length = S2.length →
      crc32_bitwise (c1 ^^^ c2) (xor_bytes S1 S2) =
        crc32_bitwise c1 S1 ^^^ crc32_bitwise c2 S2 := by
  induction S1 with
  | nil =>
    intro S2 c1 c2 h
    cases S2 with
    | nil => rfl
    | cons y ys => simp at h
  | cons x xs ih =>
    intro S2 c1 c2 h
    cases S2 with
    | nil => simp at h
    | cons y ys =>
      have hl : xs.length = ys.length := Nat.succ.inj h
      have e : xor_bytes (x :: xs) (y :: ys) = (x ^^^ y) :: xor_bytes xs ys := rfl
      have e1 : ∀ (c b : Nat) (L : List Nat),
          crc32_bitwise c (b :: L) = crc32_bitwise (crc32_byte c b) L := fun _ _ _ => rfl
      rw [e, e1, e1, e1, crc32_byte_xor, ih ys _ _ hl]

theorem crc32_table_xor (a b : Nat) (ha : a < 256) (hb : b < 256) :
    crc32_table.getD (a ^^^ b) 0 = crc32_table.getD a 0 ^^^ crc32_table.getD b 0 := by
  have ha8 : a < 2 ^ 8 := ha
  have hb8 : b < 2 ^ 8 := hb
  have hab : a ^^^ b < 256 := Nat.xor_lt_two_pow ha8 hb8
  rw [crc32_table_getD _ hab, crc32_table_getD _ ha, crc32_table_getD _ hb, crc32_bit_fun_eq,
    poly_step_iterate_xor]

theorem crc32_bitwise_cons (c b : Nat) (L : List Nat) :
    crc32_bitwise c (b :: L) = crc32_bitwise (crc32_byte c b) L :=
  rfl

/-- Two buffers that differ in the one byte between a common beginning and a
common end leave different registers. -/
theorem crc32_bitwise_one_byte (c : Nat) (hc : c < 2 ^ 32) (p q : List Nat) (x y : Nat)
    (hp : ∀ b ∈ p, b < 256) (hq : ∀ b ∈ q, b < 256) (hx : x < 256) (hy : y < 256)
    (hxy : x ≠ y) :
    crc32_bitwise c (p ++ x :: q) ≠ crc32_bitwise c (p ++ y :: q) := by
  rw [crc32_bitwise_append, crc32_bitwise_append, crc32_bitwise_cons, crc32_bitwise_cons]
  have hcp := crc32_bitwise_lt p hp c hc
  intro h
  have h1 := crc32_bitwise_injective q hq _ _ (crc32_byte_lt _ x hcp hx)
    (crc32_byte_lt _ y hcp hy) h
  unfold crc32_byte at h1
  rw [crc32_bit_fun_eq] at h1
  have h2 := poly_step_iterate_injective _ (by decide) (by decide) 8 _ _
    (Nat.xor_lt_two_pow hcp (byte_lt_two_pow_32 x hx))
    (Nat.xor_lt_two_pow hcp (byte_lt_two_pow_32 y hy)) h1
  exact hxy (Nat.xor_right_injective h2)

/-- A list splits around its position `i`. -/
theorem list_split_at (S : List Nat) (i : Nat) (hi : i < S.length) :
    S = S.take i ++ S.getD i 0 :: S.drop (i + 1) := by
  rw [List.getD_eq_getElem _ _ hi, ← List.drop_eq_getElem_cons hi, List.take_append_drop]

theorem take_eq_of_agree (S T : List Nat) (i : Nat)
    (h : ∀ j, j ≠ i → S[j]? = T[j]?) : S.take i = T.take i := by
  apply List.ext_getElem?
  intro n
  rw [List.getElem?_take, List.getElem?_take]
  by_cases hn : n < i
  · rw [if_pos hn, if_pos hn]
    exact h n (by omega)
  · rw [if_neg hn, if_neg hn]

theorem drop_eq_of_agree (S T : List Nat) (i : Nat)
    (h : ∀ j, j ≠ i → S[j]? = T[j]?) : S.drop (i + 1) = T.drop (i + 1) := by
  apply List.ext_getElem?
  intro n
  rw [List.getElem?_drop, List.getElem?_drop]
  exact h _ (by omega)

theorem mem_lt_of_take (S : List Nat) (i : Nat) (hS : ∀ b ∈ S, b < 256) :
    ∀ b ∈ S.take i, b < 256 :=
  fun b hb => hS b (List.mem_of_mem_take hb)

theorem mem_lt_of_drop (S : List Nat) (i : Nat) (hS : ∀ b ∈ S, b < 256) :
    ∀ b ∈ S.drop i, b < 256 :=
  fun b hb => hS b (List.mem_of_mem_drop hb)

theorem getD_lt_of_mem (S : List Nat) (i : Nat) (hi : i < S.length) (hS : ∀ b ∈ S, b < 256) :
    S.getD i 0 < 256 := by
  rw [List.getD_eq_getElem _ _ hi]
  exact hS _ (List.getElem_mem hi)

/-- Two buffers of the same length that differ at position `i` and nowhere else
leave different registers. -/
theorem crc32_bitwise_one_position (c : Nat) (hc : c < 2 ^ 32) (S T : List Nat)
    (hS : ∀ b ∈ S, b < 256) (hT : ∀ b ∈ T, b < 256) (hlen : S.length = T.length)
    (i : Nat) (hi : i < S.length) (hdiff : S.getD i 0 ≠ T.getD i 0)
    (hsame : ∀ j, j ≠ i → S[j]? = T[j]?) :
    crc32_bitwise c S ≠ crc32_bitwise c T := by
  have hiT : i < T.length := hlen ▸ hi
  have eS := list_split_at S i hi
  have eT := list_split_at T i hiT
  rw [← take_eq_of_agree S T i hsame, ← drop_eq_of_agree S T i hsame] at eT
  rw [eS, eT]
  exact crc32_bitwise_one_byte c hc _ _ _ _ (mem_lt_of_take S i hS) (mem_lt_of_drop S _ hS)
    (getD_lt_of_mem S i hi hS) (getD_lt_of_mem T i hiT hT) hdiff

theorem digest_software_single (t : Target) (s : Crc32) (S : List Nat)
    (hf : s.m_has_sse42 = false) (h : s.TableOk) :
    (s.crc32 t S).get.2 = crc32_bitwise s.m_crc32_value S ^^^ 0xFFFFFFFF := by
  rw [crc32_software t s hf h]
  rfl

/-! ## The ghost observations do not depend on the array -/

theorem lut_inner_fuel_ghost (i c1 c2 : Nat) :
    ∀ (fuel j : Nat) (r1 r2 : LutRun), lut_ghost r1 = lut_ghost r2 →
      Option.map lut_ghost (lut_inner_fuel i c1 fuel j r1) =
        Option.map lut_ghost (lut_inner_fuel i c2 fuel j r2) := by
  intro fuel
  induction fuel with
  | zero => intro j r1 r2 _; rfl
  | succ n ih =>
    intro j r1 r2 h
    rw [lut_inner_fuel, lut_inner_fuel]
    by_cases hj : j < 256
    · rw [if_pos hj, if_pos hj]
      apply ih
      unfold lut_ghost lut_inner_body
      unfold lut_ghost at h
      simp only [Prod.mk.injEq] at h ⊢
      exact ⟨h.1, by rw [h.2]⟩
    · rw [if_neg hj, if_neg hj]
      exact congrArg some h

theorem lut_outer_fuel_ghost :
    ∀ (fuel i crc32 : Nat) (r1 r2 : LutRun), lut_ghost r1 = lut_ghost r2 →
      Option.map lut_ghost (lut_outer_fuel fuel i crc32 r1) =
        Option.map lut_ghost (lut_outer_fuel fuel i crc32 r2) := by
  intro fuel
  induction fuel with
  | zero => intro i crc32 r1 r2 _; rfl
  | succ n ih =>
    intro i crc32 r1 r2 h
    rw [lut_outer_fuel, lut_outer_fuel]
    by_cases hi : i ≠ 0
    · rw [if_pos hi, if_pos hi]
      have hin := lut_inner_fuel_ghost i (lut_next_crc32 crc32) (lut_next_crc32 crc32) 129 0
        { r1 with outer_iterations := r1.outer_iterations + 1 }
        { r2 with outer_iterations := r2.outer_iterations + 1 }
        (by
          unfold lut_ghost at h ⊢
          simp only [Prod.mk.injEq] at h ⊢
          exact ⟨by rw [h.1], h.2⟩)
      cases h1 : lut_inner_fuel i (lut_next_crc32 crc32) 129 0
          { r1 with outer_iterations := r1.outer_iterations + 1 } with
      | none =>
        cases h2 : lut_inner_fuel i (lut_next_crc32 crc32) 129 0
            { r2 with outer_iterations := r2.outer_iterations + 1 } with
        | none => rfl
        | some b => rw [h1, h2] at hin; simp at hin
      | some a =>
        cases h2 : lut_inner_fuel i (lut_next_crc32 crc32) 129 0
            { r2 with outer_iterations := r2.outer_iterations + 1 } with
        | none => rw [h1, h2] at hin; simp at hin
        | some b =>
          rw [h1, h2] at hin
          exact ih _ _ _ _ (Option.some.inj hin)
    · rw [if_neg hi, if_neg hi]
      exact congrArg some h

theorem lut_ghost_zero_lut :
    Option.map lut_ghost (lut_outer_fuel 9 128 1 ⟨List.replicate 256 0, 0, []⟩) =
      some (8, lut_expected_visits) := by
  decide

/-- Whatever the array, the run enters the outer loop body 8 times and visits
the expected pairs in the expected order. -/
theorem lut_table_run_ghost (lut : List Nat) :
    (lut_table_run lut).outer_iterations = 8 ∧
    (lut_table_run lut).visited = lut_expected_visits := by
  have h := lut_outer_fuel_ghost 9 128 1 ⟨lut, 0, []⟩ ⟨List.replicate 256 0, 0, []⟩ rfl
  rw [lut_ghost_zero_lut] at h
  cases hr : lut_outer_fuel 9 128 1 ⟨lut, 0, []⟩ with
  | none => rw [hr] at h; simp at h
  | some r =>
    rw [hr] at h
    have hg : lut_ghost r = (8, lut_expected_visits) := Option.some.inj h
    unfold lut_table_run
    rw [lut_outer_loop_of_fuel _ _ _ _ _ hr]
    unfold lut_ghost at hg
    simp only [Prod.mk.injEq] at hg
    exact hg

theorem lut_expected_visits_in_bounds :
    ∀ p ∈ lut_expected_visits,
      p.1 ∈ [128, 64, 32, 16, 8, 4, 2, 1] ∧ p.2 % (2 * p.1) = 0 ∧ p.2 < 256 ∧
        p.1 + p.2 < 256 := by
  decide

theorem lut_expected_visits_writes :
    lut_expected_visits.length = 255 ∧
    ∀ n : Fin 256,
      (lut_expected_visits.map fun p => p.1 + p.2).count n.val = if n.val = 0 then 0 else 1 := by
  decide

/-! # The claims -/

/-- C1: on an engine whose table is all zero (hence built lazily by the call),
`m_compute_crc32` returns the bit-at-a-time reflected CRC-32 register (polynomial
`0xEDB88320`) started from the given value, for every start value and byte
sequence; consequently a fresh software-strategy engine seeded with `0xFFFFFFFF`
and fed `S` one byte per call returns the standard CRC-32/IEEE-802.3 of `S` from
`get()`, which for the ASCII bytes of "123456789" is `0xCBF43926`. -/
theorem C1_software_refines_bitwise :
    (∀ (flag : Bool) (v c : Nat) (S : List Nat),
      (Crc32.m_compute_crc32 ⟨flag, List.replicate 256 0, v⟩ c S).2 = crc32_bitwise c S) ∧
    (∀ (t : Target) (S : List Nat), (Crc32.ctor t).m_has_sse42 = false →
      (((Crc32.ctor t).seed 0xFFFFFFFF).accumulate t (S.map fun b => [b])).get.2 =
        crc32_ieee S) ∧
    (∀ (t : Target), (Crc32.ctor t).m_has_sse42 = false →
      (((Crc32.ctor t).seed 0xFFFFFFFF).accumulate t
        (check_bytes.map fun b => [b])).get.2 = 0xCBF43926) := by
  have key : ∀ (t : Target) (values : List (List Nat)), (Crc32.ctor t).m_has_sse42 = false →
      (((Crc32.ctor t).seed 0xFFFFFFFF).accumulate t values).get.2 =
        crc32_ieee values.flatten := by
    intro t values hf
    rw [digest_software t ((Crc32.ctor t).seed 0xFFFFFFFF) values hf
      (seed_tableOk _ _ (ctor_tableOk t)), seed_value]
    rfl
  refine ⟨?_, ?_, ?_⟩
  · intro flag v c S
    rw [m_compute_crc32_of_tableOk _ (Or.inl rfl)]
  · intro t S hf
    rw [key t _ hf, flatten_singletons]
  · intro t hf
    rw [key t _ hf]
    decide

/-- C1 at a concrete input: the check string on a software-strategy build. -/
theorem C1_software_refines_bitwise_witness :
    (Crc32.ctor target_software).m_has_sse42 = false ∧
    (((Crc32.ctor target_software).seed 0xFFFFFFFF).accumulate target_software
        (check_bytes.map fun b => [b])).get.2 = 0xCBF43926 :=
  ⟨by decide, C1_software_refines_bitwise.2.2 target_software (by decide)⟩

/-- C2 (counterexample): on a fresh software-strategy engine left at seed 0,
`get()` right after construction returns `0xFFFFFFFF` while the reference CRC-32
of the empty input is `0x00000000`; and for "123456789" the engine returns
`0xD202D277` while the reference value is `0xCBF43926`. -/
theorem C2_default_seed_counterexample :
    (Crc32.ctor target_software).m_has_sse42 = false ∧
    (Crc32.ctor target_software).get.2 = 0xFFFFFFFF ∧
    crc32_ieee [] = 0x00000000 ∧
    ((Crc32.ctor target_software).accumulate target_software [check_bytes]).get.2 =
      0xD202D277 ∧
    crc32_ieee check_bytes = 0xCBF43926 := by
  refine ⟨by decide, ?_, by decide, ?_, by decide⟩
  · rw [get_snd, ctor_value]
    decide
  · rw [digest_software _ _ _ (by decide) (ctor_tableOk _), ctor_value]
    decide

/-- C2 (amended): a fresh software-strategy engine left at its default seed 0
that accumulates any chain of values and then calls `get()` returns the
bit-at-a-time reflected CRC-32 register started from 0 (not from the standard
preset `0xFFFFFFFF`) over the concatenated bytes, XOR `0xFFFFFFFF`; right after
construction `get()` returns `0xFFFFFFFF`. -/
theorem C2_default_seed_digest (t : Target) (values : List (List Nat))
    (hf : (Crc32.ctor t).m_has_sse42 = false) :
    ((Crc32.ctor t).accumulate t values).get.2 =
      crc32_bitwise 0 values.flatten ^^^ 0xFFFFFFFF ∧
    (Crc32.ctor t).get.2 = 0xFFFFFFFF := by
  refine ⟨?_, ?_⟩
  · rw [digest_software t _ values hf (ctor_tableOk t), ctor_value]
  · rw [get_snd, ctor_value]
    decide

/-- C2 (amended) at a concrete input: two one-byte values on a software-strategy
build. -/
theorem C2_default_seed_digest_witness :
    (Crc32.ctor target_software).m_has_sse42 = false ∧
    ((Crc32.ctor target_software).accumulate target_software [[0x31], [0x32]]).get.2 =
      crc32_bitwise 0 [[0x31], [0x32]].flatten ^^^ 0xFFFFFFFF ∧
    (Crc32.ctor target_software).get.2 = 0xFFFFFFFF :=
  ⟨by decide, C2_default_seed_digest target_software [[0x31], [0x32]] (by decide)⟩

/-- C3 (failing input): seeded with `0xFFFFFFFF` and fed the bytes of
"123456789", the software strategy ends at digest `0xCBF43926` (CRC-32) and the
hardware strategy at digest `0xE3069283` (CRC-32C); already for the single byte
`0x01` from seed 0 the two running values are `0x77073096` and `0xF26B8303`. -/
theorem C3_strategies_disagree :
    (((Crc32.ctor target_software).seed 0xFFFFFFFF).crc32 target_software check_bytes).get.2 =
      0xCBF43926 ∧
    (((Crc32.ctor target_sse42).seed 0xFFFFFFFF).crc32 target_sse42 check_bytes).get.2 =
      0xE3069283 ∧
    ((Crc32.ctor target_software).m_compute_crc32 0 [0x01]).2 = 0x77073096 ∧
    Crc32.m_compute_crc32_sse4 target_sse42 0 [0x01] = 0xF26B8303 := by
  refine ⟨?_, by decide, ?_, by decide⟩
  · rw [← accumulate_singleton,
      digest_software target_software ((Crc32.ctor target_software).seed 0xFFFFFFFF) _
        (by decide) (seed_tableOk _ _ (ctor_tableOk _)), seed_value]
    decide
  · rw [m_compute_crc32_of_tableOk _ (ctor_tableOk _)]
    decide

/-- C4: on the software strategy, for every engine state (any running value, any
256-entry table) and all byte sequences `a` and `b`, the two chained calls
`crc32(a)`, `crc32(b)` leave the same engine (running value, table and flag),
and hence the same `get()` digest, as the single call `crc32(a ++ b)`. -/
theorem C4_chaining (t : Target) (s : Crc32) (hlen : s.m_computed_crc32_lut.length = 256)
    (hf : s.m_has_sse42 = false) (a b : List Nat) :
    (s.crc32 t a).crc32 t b = s.crc32 t (a ++ b) ∧
    ((s.crc32 t a).crc32 t b).get.2 = (s.crc32 t (a ++ b)).get.2 := by
  have h : (s.crc32 t a).crc32 t b = s.crc32 t (a ++ b) := by
    have hf1 : s.ensure_lut.m_has_sse42 = false := (ensure_lut_flag s).trans hf
    have hf2 : ∀ v : Nat, (Crc32.mk s.ensure_lut.m_has_sse42 s.ensure_lut.m_computed_crc32_lut
        v).m_has_sse42 = false := fun _ => hf1
    rw [crc32_software_unfold t s hf a, crc32_software_unfold t s hf (a ++ b),
      crc32_software_unfold t _ (hf2 _), ensure_lut_idempotent s hlen,
      m_compute_crc32_loop_append]
  exact ⟨h, by rw [h]⟩

/-- C4 at a concrete input: the bytes 01 02 then 03 on a fresh engine. -/
theorem C4_chaining_witness :
    ((Crc32.ctor target_software).crc32 target_software [0x01, 0x02]).crc32 target_software
        [0x03] =
      (Crc32.ctor target_software).crc32 target_software ([0x01, 0x02] ++ [0x03]) :=
  (C4_chaining target_software (Crc32.ctor target_software) (by decide) (by decide)
    [0x01, 0x02] [0x03]).1

/-- C5: `get()` returns the running value XOR `0xFFFFFFFF` and leaves the engine
(running value, lookup table, hardware flag) as it was, so a second `get()`
returns the same value. -/
theorem C5_get_frame (s : Crc32) :
    s.get.2 = s.m_crc32_value ^^^ 0xFFFFFFFF ∧
    s.get.1.m_crc32_value = s.m_crc32_value ∧
    s.get.1.m_computed_crc32_lut = s.m_computed_crc32_lut ∧
    s.get.1.m_has_sse42 = s.m_has_sse42 ∧
    s.get.1.get.2 = s.get.2 :=
  ⟨rfl, rfl, rfl, rfl, rfl⟩

/-- C6: on the software strategy, from any reachable engine state, for every
chain of accumulated values (of any length, all bytes below 256) and all 32-bit
seeds `X ≠ Y`, `seed(X)`, the accumulates and `get()` return a digest different
from that of `seed(Y)`, the same accumulates and `get()`. -/
theorem C6_seed_sensitivity (t : Target) (s : Crc32) (hr : Crc32.Reachable t s)
    (hf : s.m_has_sse42 = false) (values : List (List Nat))
    (hv : ∀ b ∈ values.flatten, b < 256) (X Y : Nat) (hX : X < 2 ^ 32) (hY : Y < 2 ^ 32)
    (hne : X ≠ Y) :
    ((s.seed X).accumulate t values).get.2 ≠ ((s.seed Y).accumulate t values).get.2 := by
  have hok := (reachable_invariant t s hr).2.1
  rw [digest_software t (s.seed X) values hf hok, digest_software t (s.seed Y) values hf hok,
    seed_value, seed_value]
  intro h
  exact hne (crc32_bitwise_injective _ hv X Y hX hY (Nat.xor_left_injective h))

/-- C6 at a concrete input: seeds 0 and 1 on the bytes 01 02. -/
theorem C6_seed_sensitivity_witness :
    (((Crc32.ctor target_software).seed 0).accumulate target_software [[0x01, 0x02]]).get.2 ≠
      (((Crc32.ctor target_software).seed 1).accumulate target_software [[0x01, 0x02]]).get.2 :=
  C6_seed_sensitivity target_software (Crc32.ctor target_software) Crc32.Reachable.ctor
    (by decide) [[0x01, 0x02]] (by decide) 0 1 (by decide) (by decide) (by decide)

/-- C7: with the target, and so the hardware flag, fixed, the digest depends only
on the seed and the accumulated values: from every reachable state, `reset(v)`
followed by any chain of accumulate calls and `get()` returns what a freshly
constructed engine returns after `seed(v)`, the same chain and `get()`. -/
theorem C7_digest_history_independent (t : Target) (s : Crc32) (h : Crc32.Reachable t s)
    (v : Nat) (values : List (List Nat)) :
    ((s.reset v).accumulate t values).get.2 =
      (((Crc32.ctor t).seed v).accumulate t values).get.2 := by
  have hinv := reachable_invariant t s h
  rw [get_snd, get_snd]
  rw [accumulate_value_congr t values (s.reset v) ((Crc32.ctor t).seed v) hinv.1 rfl hinv.2.1
    (ctor_tableOk t)]

/-- C7 at a concrete input: an engine that has accumulated a byte and been
re-seeded, against a fresh one. -/
theorem C7_digest_history_independent_witness :
    (((((Crc32.ctor target_software).call target_software (Call.crc32 [0x07])).call
        target_software (Call.seed 9)).reset 5).accumulate target_software [[0x01, 0x02]]).get.2 =
      (((Crc32.ctor target_software).seed 5).accumulate target_software [[0x01, 0x02]]).get.2 :=
  C7_digest_history_independent target_software _
    (Crc32.Reachable.call _ (Call.seed 9)
      (Crc32.Reachable.call _ (Call.crc32 [0x07]) Crc32.Reachable.ctor
        (by intro b hb; simp at hb; omega))
      (by show (9 : Nat) < 2 ^ 32; decide))
    5 [[0x01, 0x02]]

/-- C8: run on an all-zero 256-entry table, `m_compute_crc32_lut_table` leaves a
256-entry table whose entry `n` is `n` after 8 steps of
`(x >> 1) XOR (0xEDB88320 if the lowest bit of x is set)`, for every index
`n` in 0..255; entry 0 is 0; and the outer loop body runs exactly 8 times. -/
theorem C8_lut_table_populated (flag : Bool) (v : Nat) :
    (∀ n : Fin 256,
      (Crc32.m_compute_crc32_lut_table
        ⟨flag, List.replicate 256 0, v⟩).m_computed_crc32_lut.getD n.val 0 =
        crc32_bit^[8] n.val) ∧
    (Crc32.m_compute_crc32_lut_table
      ⟨flag, List.replicate 256 0, v⟩).m_computed_crc32_lut.length = 256 ∧
    (Crc32.m_compute_crc32_lut_table
      ⟨flag, List.replicate 256 0, v⟩).m_computed_crc32_lut.getD 0 0 = 0 ∧
    (lut_table_run (List.replicate 256 0)).outer_iterations = 8 := by
  have hz : (Crc32.mk flag (List.replicate 256 0) v).m_computed_crc32_lut =
      List.replicate 256 0 := rfl
  rw [m_compute_crc32_lut_table_lut, hz, lut_table_run_zero_lut.1]
  exact ⟨fun n => crc32_table_getD n.val n.isLt, crc32_table_length, by decide,
    lut_table_run_zero_lut.2⟩

/-- C9: in every state reachable from construction by seed, reset, crc32 and get
calls the lookup table is all zero or equal to the fully populated reflected
CRC-32 table; and in every software-path accumulate from such a state the table
handed to the per-byte loop, after the lazy check of line 32, is the fully
populated table, in which entry `n` is `n` after 8 bit steps. -/
theorem C9_table_zero_or_populated (t : Target) (s : Crc32) (h : Crc32.Reachable t s) :
    (s.m_computed_crc32_lut = List.replicate 256 0 ∨ s.m_computed_crc32_lut = crc32_table) ∧
    s.ensure_lut.m_computed_crc32_lut = crc32_table ∧
    (∀ (a_crc32 : Nat) (datas : List Nat),
      s.m_compute_crc32 a_crc32 datas =
        (s.ensure_lut, m_compute_crc32_loop crc32_table a_crc32 datas)) ∧
    (∀ n : Fin 256, crc32_table.getD n.val 0 = crc32_bit^[8] n.val) := by
  have hok := (reachable_invariant t s h).2.1
  have he : s.ensure_lut.m_computed_crc32_lut = crc32_table := by
    rw [ensure_lut_of_tableOk s hok]
  refine ⟨hok, he, ?_, fun n => crc32_table_getD n.val n.isLt⟩
  intro a_crc32 datas
  unfold Crc32.m_compute_crc32
  simp only [he]

/-- C9 at a concrete input: the state after one accumulate on a fresh engine. -/
theorem C9_table_zero_or_populated_witness :
    ((Crc32.ctor target_software).call target_software (Call.crc32 [0x01])).m_computed_crc32_lut
        = List.replicate 256 0 ∨
      ((Crc32.ctor target_software).call target_software (Call.crc32 [0x01])).m_computed_crc32_lut
        = crc32_table :=
  (C9_table_zero_or_populated target_software _
    (Crc32.Reachable.call _ (Call.crc32 [0x01]) Crc32.Reachable.ctor
      (by intro b hb; simp at hb; omega))).1

/-- C10: `seed(v)` and `reset(v)` produce the same engine, whose running value
is `v` and whose lookup table and hardware flag are unchanged, for every `v`;
`reset()` sets the running value to 0 and changes nothing else. -/
theorem C10_seed_reset_frame (s : Crc32) (v : Nat) :
    s.seed v = s.reset v ∧
    (s.seed v).m_crc32_value = v ∧
    (s.seed v).m_computed_crc32_lut = s.m_computed_crc32_lut ∧
    (s.seed v).m_has_sse42 = s.m_has_sse42 ∧
    s.reset_default = s.reset 0 ∧
    s.reset_default.m_crc32_value = 0 ∧
    s.reset_default.m_computed_crc32_lut = s.m_computed_crc32_lut ∧
    s.reset_default.m_has_sse42 = s.m_has_sse42 :=
  ⟨rfl, rfl, rfl, rfl, rfl, rfl, rfl, rfl⟩

/-- C11: generating the table a second time, on the table produced by a
generation from the all-zero array, leaves each of the 256 entries (and the
length) unchanged. -/
theorem C11_lut_table_idempotent (flag : Bool) (v : Nat) :
    (Crc32.m_compute_crc32_lut_table
      (Crc32.m_compute_crc32_lut_table ⟨flag, List.replicate 256 0, v⟩)).m_computed_crc32_lut =
      (Crc32.m_compute_crc32_lut_table ⟨flag, List.replicate 256 0, v⟩).m_computed_crc32_lut ∧
    (∀ n : Fin 256,
      (Crc32.m_compute_crc32_lut_table
        (Crc32.m_compute_crc32_lut_table
          ⟨flag, List.replicate 256 0, v⟩)).m_computed_crc32_lut.getD n.val 0 =
        (Crc32.m_compute_crc32_lut_table
          ⟨flag, List.replicate 256 0, v⟩).m_computed_crc32_lut.getD n.val 0) ∧
    (Crc32.m_compute_crc32_lut_table
      (Crc32.m_compute_crc32_lut_table
        ⟨flag, List.replicate 256 0, v⟩)).m_computed_crc32_lut.length = 256 := by
  have hlen : (Crc32.mk flag (List.replicate 256 0) v).m_computed_crc32_lut.length = 256 :=
    List.length_replicate 256 0
  have h := lut_table_generation_idempotent _ hlen
  rw [h]
  exact ⟨rfl, fun _ => rfl, lut_table_generation_length _ hlen⟩

/-- C12 (failing input): for seed 125, then the bytes 00 00 20 40 of float 2.5,
then the byte 01 of boolean true, `get()` returns `0x418EE2F2` on the software
strategy and `0xAD2F254B` on the hardware strategy. -/
theorem C12_scenario_strategies_disagree :
    (((Crc32.ctor target_software).seed 125).accumulate target_software
      [float_2_5_bytes, bool_true_bytes]).get.2 = 0x418EE2F2 ∧
    (((Crc32.ctor target_sse42).seed 125).accumulate target_sse42
      [float_2_5_bytes, bool_true_bytes]).get.2 = 0xAD2F254B := by
  refine ⟨?_, by decide⟩
  rw [digest_software target_software ((Crc32.ctor target_software).seed 125) _
    (by decide) (seed_tableOk _ _ (ctor_tableOk _)), seed_value]
  decide

/-- C13: for every running value `r`, every byte `b` (0..255) and every table, one
pass of the loop body of `m_compute_crc32` (first `r ^= b`, then
`r = (r >> 8) ^ table[r & 0xFF]`) yields the value of the specification's formula
`(r >> 8) XOR table[(r XOR b) & 0xFF]`, and XOR-ing the byte in first does not
change the shifted part. -/
theorem C13_byte_step_formula (table : List Nat) (r b : Nat) (hb : b < 256) :
    m_compute_crc32_loop table r [b] = spec_byte_step table r b ∧
    (r ^^^ b) >>> 8 = r >>> 8 := by
  have hshift : (r ^^^ b) >>> 8 = r >>> 8 := by
    apply Nat.eq_of_testBit_eq
    intro i
    rw [Nat.testBit_shiftRight, Nat.testBit_shiftRight, Nat.testBit_xor]
    have hpow : 2 ^ 8 ≤ 2 ^ (8 + i) :=
      Nat.pow_le_pow_right (show 0 < 2 by decide) (Nat.le_add_right 8 i)
    have hb8 : b < 2 ^ 8 := hb
    have hbit : b.testBit (8 + i) = false :=
      Nat.testBit_lt_two_pow (Nat.lt_of_lt_of_le hb8 hpow)
    rw [hbit, Bool.xor_false]
  refine ⟨?_, hshift⟩
  unfold spec_byte_step
  rw [m_compute_crc32_loop, m_compute_crc32_loop, hshift]

/-- C13 at a concrete input: running value `0x12345678`, byte `0xAB`, the
reference table. -/
theorem C13_byte_step_formula_witness :
    (0xAB : Nat) < 256 ∧
    m_compute_crc32_loop crc32_table 0x12345678 [0xAB] =
      spec_byte_step crc32_table 0x12345678 0xAB :=
  ⟨by decide, (C13_byte_step_formula crc32_table 0x12345678 0xAB (by decide)).1⟩

/-- C14: on a 64-bit target, for every 32-bit start value `c` and byte sequence
`a` of length `n`, the hardware path cuts `a` into `n / 8` consecutive chunks of
eight bytes, takes one `_mm_crc32_u64` step per chunk in order, and then one
`_mm_crc32_u8` step per byte of the `n % 8` bytes left, so every byte is
consumed once, in order; the value returned is that of one-byte steps over all
of `a`; hence two chained hardware accumulates over `a` and `b` equal one
hardware accumulate over `a ++ b`, for the returned value and for the engine. -/
theorem C14_hardware_wide_steps (t : Target) (hx : t.x64 = true) (c : Nat) (hc : c < 2 ^ 32)
    (a b : List Nat) (ha : ∀ x ∈ a, x < 256) (hb : ∀ x ∈ b, x < 256) :
    (∃ chunks : List (List Nat),
      (∀ ch ∈ chunks, ch.length = 8) ∧
      chunks.length = a.length / 8 ∧
      chunks.flatten ++ (m_compute_crc32_sse4_wide c a).2 = a ∧
      (m_compute_crc32_sse4_wide c a).2.length = a.length % 8 ∧
      (m_compute_crc32_sse4_wide c a).1 =
        chunks.foldl (fun r ch => mm_crc32_u64 r (load_u64_at ch) % 2 ^ 32) c ∧
      Crc32.m_compute_crc32_sse4 t c a =
        (m_compute_crc32_sse4_wide c a).2.foldl mm_crc32_u8 (m_compute_crc32_sse4_wide c a).1) ∧
    Crc32.m_compute_crc32_sse4 t c a = a.foldl mm_crc32_u8 c ∧
    Crc32.m_compute_crc32_sse4 t (Crc32.m_compute_crc32_sse4 t c a) b =
      Crc32.m_compute_crc32_sse4 t c (a ++ b) ∧
    (∀ s : Crc32, s.m_has_sse42 = true → s.m_crc32_value = c →
      (s.crc32 t a).crc32 t b = s.crc32 t (a ++ b)) := by
  have hfa := m_compute_crc32_sse4_eq_fold t hx c a hc ha
  have hlt : a.foldl mm_crc32_u8 c < 2 ^ 32 := foldl_mm_crc32_u8_lt a ha c hc
  have hab : ∀ x ∈ a ++ b, x < 256 := by
    intro x hxm
    rcases List.mem_append.1 hxm with h | h
    · exact ha x h
    · exact hb x h
  have hchain : Crc32.m_compute_crc32_sse4 t (Crc32.m_compute_crc32_sse4 t c a) b =
      Crc32.m_compute_crc32_sse4 t c (a ++ b) := by
    rw [hfa, m_compute_crc32_sse4_eq_fold t hx _ b hlt hb,
      m_compute_crc32_sse4_eq_fold t hx c (a ++ b) hc hab, List.foldl_append]
  refine ⟨?_, hfa, hchain, ?_⟩
  · obtain ⟨chunks, h1, h2, h3, h4, h5⟩ := sse4_wide_chunks c a
    exact ⟨chunks, h1, h2, h3, h4, h5, m_compute_crc32_sse4_x64 t hx c a⟩
  · intro s hf hv
    have hf1 : (s.crc32 t a).m_has_sse42 = true := (crc32_flag t s a).trans hf
    rw [crc32_hardware t _ hf1, crc32_hardware t s hf, crc32_hardware t s hf, hv]
    simp only
    rw [hchain]

/-- C14 at a concrete input: start value 125, the nine bytes of "123456789"
(one eight-byte step and one one-byte step), then the byte 01. -/
theorem C14_hardware_wide_steps_witness :
    target_sse42.x64 = true ∧ (125 : Nat) < 2 ^ 32 ∧
    Crc32.m_compute_crc32_sse4 target_sse42 125 check_bytes =
      check_bytes.foldl mm_crc32_u8 125 ∧
    Crc32.m_compute_crc32_sse4 target_sse42
        (Crc32.m_compute_crc32_sse4 target_sse42 125 check_bytes) [0x01] =
      Crc32.m_compute_crc32_sse4 target_sse42 125 (check_bytes ++ [0x01]) :=
  ⟨rfl, by decide,
    (C14_hardware_wide_steps target_sse42 rfl 125 (by decide) check_bytes [0x01]
      (by decide) (by decide)).2.1,
    (C14_hardware_wide_steps target_sse42 rfl 125 (by decide) check_bytes [0x01]
      (by decide) (by decide)).2.2.1⟩

/-- C15: no call (seed, reset, crc32 on either strategy, get, with any arguments
and from any state) changes the hardware flag, so after any sequence of calls it
is the one the constructor chose; and while the flag is true, `crc32` leaves the
lookup table as it is, so the table of the instance stays all zero. -/
theorem C15_flag_fixed (t : Target) (s : Crc32) (c : Call) (calls : List Call) (S : List Nat) :
    (s.call t c).m_has_sse42 = s.m_has_sse42 ∧
    s.reset_default.m_has_sse42 = s.m_has_sse42 ∧
    ((Crc32.ctor t).run t calls).m_has_sse42 = (Crc32.ctor t).m_has_sse42 ∧
    (s.m_has_sse42 = true →
      (s.crc32 t S).m_computed_crc32_lut = s.m_computed_crc32_lut) ∧
    ((Crc32.ctor t).m_has_sse42 = true →
      ((Crc32.ctor t).run t calls).m_computed_crc32_lut = List.replicate 256 0) :=
  ⟨call_flag t s c, rfl, run_flag t calls _, fun hf => crc32_hardware_lut t s hf S,
    fun hf => run_hardware_lut t calls _ hf⟩

/-- C15 at a concrete input: a hardware-strategy engine after a seed, two
accumulates and a get still has its all-zero table. -/
theorem C15_flag_fixed_witness :
    (Crc32.ctor target_sse42).m_has_sse42 = true ∧
    ((Crc32.ctor target_sse42).run target_sse42
      [Call.seed 125, Call.crc32 float_2_5_bytes, Call.crc32 bool_true_bytes,
        Call.get]).m_computed_crc32_lut = List.replicate 256 0 :=
  ⟨by decide,
    (C15_flag_fixed target_sse42 (Crc32.ctor target_sse42) Call.get
      [Call.seed 125, Call.crc32 float_2_5_bytes, Call.crc32 bool_true_bytes, Call.get]
      []).2.2.2.2 (by decide)⟩

/-- C16: the table generated from the all-zero array has the non-zero sentinel
entry `table[255] = 0x2D02EF8D`.  On a software-strategy instance the check
`table[255] == 0` of line 32 therefore holds at the first accumulate (whatever
seed, reset and get calls came before it) and fails at every accumulate after it
(whatever calls came in between), where the lazy step leaves the engine as it
is. -/
theorem C16_sentinel_triggers_once (t : Target) (hf : (Crc32.ctor t).m_has_sse42 = false)
    (before : List Call) (hbefore : ∀ c ∈ before, c.NotAccumulate)
    (S : List Nat) (later : List Call) :
    (Crc32.m_compute_crc32_lut_table (Crc32.ctor t)).m_computed_crc32_lut.getD 255 0 =
      0x2D02EF8D ∧
    ((Crc32.ctor t).run t before).m_computed_crc32_lut.getD 255 0 = 0 ∧
    ((Crc32.ctor t).run t before).ensure_lut =
      ((Crc32.ctor t).run t before).m_compute_crc32_lut_table ∧
    ((((Crc32.ctor t).run t before).crc32 t S).run t later).m_computed_crc32_lut.getD 255 0 =
      0x2D02EF8D ∧
    ((((Crc32.ctor t).run t before).crc32 t S).run t later).ensure_lut =
      (((Crc32.ctor t).run t before).crc32 t S).run t later := by
  have h0 : ((Crc32.ctor t).run t before).m_computed_crc32_lut = List.replicate 256 0 :=
    run_notAccumulate_lut t before _ hbefore
  have hf0 : ((Crc32.ctor t).run t before).m_has_sse42 = false :=
    (run_flag t before _).trans hf
  have h1 : (((Crc32.ctor t).run t before).crc32 t S).m_computed_crc32_lut = crc32_table := by
    rw [crc32_software t _ hf0 (Or.inl h0)]
  have hf1 : (((Crc32.ctor t).run t before).crc32 t S).m_has_sse42 = false :=
    (crc32_flag t _ S).trans hf0
  have h2 := run_populated t later _ hf1 h1
  refine ⟨?_, ?_, ?_, ?_, ensure_lut_of_populated _ h2⟩
  · rw [m_compute_crc32_lut_table_lut, ctor_lut, lut_table_run_zero_lut.1, crc32_table_sentinel]
  · rw [h0, replicate_sentinel]
  · unfold Crc32.ensure_lut
    rw [h0, if_pos replicate_sentinel]
  · rw [h2, crc32_table_sentinel]

/-- C16 at a concrete input: a reset before the first accumulate, a get and a
second accumulate after it. -/
theorem C16_sentinel_triggers_once_witness :
    ((((Crc32.ctor target_software).run target_software [Call.reset 7]).crc32 target_software
      [0x01]).run target_software
        [Call.get, Call.crc32 [0x02]]).m_computed_crc32_lut.getD 255 0 = 0x2D02EF8D :=
  (C16_sentinel_triggers_once target_software (by decide) [Call.reset 7]
    (by intro c hc; simp at hc; subst hc; exact True.intro) [0x01]
    [Call.get, Call.crc32 [0x02]]).2.2.2.1

/-- C17: on the software strategy, from any reachable engine state, for every
32-bit seed `c` and every two byte sequences `S` and `T` of the same length that
differ at one position `i` and agree at every other position, the digest of `S`
differs from the digest of `T`. -/
theorem C17_single_byte_corruption (t : Target) (s : Crc32) (hr : Crc32.Reachable t s)
    (hf : s.m_has_sse42 = false) (c : Nat) (hc : c < 2 ^ 32) (S T : List Nat)
    (hS : ∀ b ∈ S, b < 256) (hT : ∀ b ∈ T, b < 256) (hlen : S.length = T.length)
    (i : Nat) (hi : i < S.length) (hdiff : S.getD i 0 ≠ T.getD i 0)
    (hsame : ∀ j, j ≠ i → S[j]? = T[j]?) :
    ((s.seed c).crc32 t S).get.2 ≠ ((s.seed c).crc32 t T).get.2 := by
  have hok := (reachable_invariant t s hr).2.1
  rw [digest_software_single t (s.seed c) S hf hok, digest_software_single t (s.seed c) T hf hok,
    seed_value]
  intro h
  exact crc32_bitwise_one_position c hc S T hS hT hlen i hi hdiff hsame
    (Nat.xor_left_injective h)

/-- C17 at a concrete input: the bytes 01 02 03 against 01 07 03, seed 125. -/
theorem C17_single_byte_corruption_witness :
    (((Crc32.ctor target_software).seed 125).crc32 target_software [0x01, 0x02, 0x03]).get.2 ≠
      (((Crc32.ctor target_software).seed 125).crc32 target_software [0x01, 0x07, 0x03]).get.2 :=
  C17_single_byte_corruption target_software (Crc32.ctor target_software) Crc32.Reachable.ctor
    (by decide) 125 (by decide) [0x01, 0x02, 0x03] [0x01, 0x07, 0x03] (by decide) (by decide)
    rfl 1 (by decide) (by decide)
    (by
      intro j hj
      rcases j with _ | _ | _ | j
      · rfl
      · exact absurd rfl hj
      · rfl
      · rfl)

/-- C18: with the table all zero or populated (as in every reachable state), the
software fold is XOR-linear: for all start values `c1`, `c2` and all byte
sequences `S1`, `S2` of equal length, `m_compute_crc32` of `c1 XOR c2` over the
bytewise XOR of `S1` and `S2` returns the XOR of its values for `(c1, S1)` and
`(c2, S2)`; and the table it uses satisfies
`table[a XOR b] = table[a] XOR table[b]` for all `a`, `b` in 0..255. -/
theorem C18_xor_linear (s : Crc32) (hs : s.TableOk) (c1 c2 : Nat) (S1 S2 : List Nat)
    (hlen : S1.length = S2.length) :
    (s.m_compute_crc32 (c1 ^^^ c2) (xor_bytes S1 S2)).2 =
      (s.m_compute_crc32 c1 S1).2 ^^^ (s.m_compute_crc32 c2 S2).2 ∧
    (∀ a b : Fin 256,
      s.ensure_lut.m_computed_crc32_lut.getD (a.val ^^^ b.val) 0 =
        s.ensure_lut.m_computed_crc32_lut.getD a.val 0 ^^^
          s.ensure_lut.m_computed_crc32_lut.getD b.val 0) := by
  refine ⟨?_, ?_⟩
  · rw [m_compute_crc32_of_tableOk s hs, m_compute_crc32_of_tableOk s hs,
      m_compute_crc32_of_tableOk s hs]
    exact crc32_bitwise_xor S1 S2 c1 c2 hlen
  · intro a b
    rw [ensure_lut_of_tableOk s hs]
    exact crc32_table_xor a.val b.val a.isLt b.isLt

/-- C18 at a concrete input: a fresh engine, start values 1 and 2, the bytes
01 02 and 03 04. -/
theorem C18_xor_linear_witness :
    ((Crc32.ctor target_software).m_compute_crc32 (1 ^^^ 2) (xor_bytes [0x01, 0x02] [0x03, 0x04])).2 =
      ((Crc32.ctor target_software).m_compute_crc32 1 [0x01, 0x02]).2 ^^^
        ((Crc32.ctor target_software).m_compute_crc32 2 [0x03, 0x04]).2 :=
  (C18_xor_linear (Crc32.ctor target_software) (ctor_tableOk _) 1 2 [0x01, 0x02] [0x03, 0x04]
    rfl).1

/-- C19: whatever the array it starts from, `m_compute_crc32_lut_table` ends
after exactly 8 passes of the outer loop, and its inner loop body runs for the
pairs `(i, j)` with `i` in 128, 64, ..., 1 and `j` the multiples of `2 * i`
below 256; for each of them the index read `j` and the index written `i + j` are
below 256; there are 255 writes, each index 1..255 is written exactly once and
index 0 never; a 256-entry array stays a 256-entry array.  In `m_compute_crc32`
the index `a_crc32 & 0xFF` is below 256 for every running value. -/
theorem C19_table_access_in_bounds (lut : List Nat) (a_crc32 : Nat) :
    (lut_table_run lut).outer_iterations = 8 ∧
    (lut_table_run lut).visited = lut_expected_visits ∧
    (∀ p ∈ (lut_table_run lut).visited,
      p.1 ∈ [128, 64, 32, 16, 8, 4, 2, 1] ∧ p.2 % (2 * p.1) = 0 ∧ p.2 < 256 ∧
        p.1 + p.2 < 256) ∧
    (lut_table_run lut).visited.length = 255 ∧
    (∀ n : Fin 256,
      ((lut_table_run lut).visited.map fun p => p.1 + p.2).count n.val =
        if n.val = 0 then 0 else 1) ∧
    a_crc32 &&& 0xFF < 256 ∧
    (lut.length = 256 → (lut_table_run lut).lut.length = 256) := by
  have hg := lut_table_run_ghost lut
  rw [hg.2]
  exact ⟨hg.1, rfl, lut_expected_visits_in_bounds, lut_expected_visits_writes.1,
    lut_expected_visits_writes.2, Nat.and_lt_two_pow a_crc32 (show 0xFF < 2 ^ 8 by decide),
    fun hlen => (lut_table_run_spec lut hlen).1⟩

/-- C19 at a concrete input: the all-zero array keeps its 256 entries. -/
theorem C19_table_access_in_bounds_witness :
    (List.replicate 256 0).length = 256 ∧
    (lut_table_run (List.replicate 256 0)).lut.length = 256 :=
  ⟨List.length_replicate 256 0,
    (C19_table_access_in_bounds (List.replicate 256 0) 0).2.2.2.2.2.2
      (List.length_replicate 256 0)⟩
